import Mathlib

/-!
Verification of the DrugWeave drug–protein affinity pipeline
(`drug_affinity_prediction_using_neural_networks.ipynb`).

The development shallowly embeds the pure core of the pipeline:
sequence/SMILES encoding (`encode_sequences`), the two protein-aware
train/test split policies (`train_test_split_proteins`), the
feed-forward regressor (`DrugProteinNN`), and the five-metric evaluator
(`evaluate_model_with_metrics`, whose metric calls to scikit-learn,
scipy and lifelines are embedded from the exact-arithmetic
semantics of those libraries).  Machine floats are idealized as rationals (reals where a
square root occurs); a library call that raises or returns NaN is
modelled as an `Option` returning `none`.
-/

namespace DrugWeave

/-! ## Sequence encoding (`encode_sequences`) -/

/-- The fixed ordered amino-acid alphabet `list("ACDEFGHIKLMNPQRSTVWY")`. -/
def amino_acids : List Char := "ACDEFGHIKLMNPQRSTVWY".toList

/-- Lookup with default 0 in an association list, embedding the Python call
`dict.get(key, 0)`. -/
def lookupOr0 (d : List (Char × Nat)) (c : Char) : Nat :=
  match d.find? (fun p => p.1 == c) with
  | some p => p.2
  | none => 0

/-- The dictionary `{aa: i+1 for i, aa in enumerate(amino_acids)}`. -/
def aa_to_num_dict : List (Char × Nat) :=
  amino_acids.enum.map (fun p => (p.2, p.1 + 1))

/-- The protein vocabulary: `aa_to_num.get(aa, 0)`. -/
def aa_to_num (c : Char) : Nat := lookupOr0 aa_to_num_dict c

/-- Embedding of the per-string encoding lambda
`[vocab.get(ch, 0) for ch in s] + [0] * (maxLen - len(s))`.
In Python `[0] * n` is empty for negative `n`, matching truncated
subtraction on `Nat`. -/
def encodeWith (vocab : Char → Nat) (maxLen : Nat) (s : List Char) : List Nat :=
  s.map vocab ++ List.replicate (maxLen - s.length) 0

/-- Embedding of `max(df[col].apply(len))`, the corpus maximum length. -/
def maxLen (corpus : List (List Char)) : Nat :=
  (corpus.map List.length).foldr max 0

/-- Embedding of the `Encoded_Sequence` (resp. `Encoded_SMILES`) column
construction of `encode_sequences`: every string of the corpus encoded
against the corpus maximum length. -/
def encode_sequences (vocab : Char → Nat) (corpus : List (List Char)) : List (List Nat) :=
  corpus.map (encodeWith vocab (maxLen corpus))

theorem le_maxLen {corpus : List (List Char)} {s : List Char} (hs : s ∈ corpus) :
    s.length ≤ maxLen corpus := by
  induction corpus with
  | nil => cases hs
  | cons t ts ih =>
    rcases List.mem_cons.mp hs with h | h
    · exact h ▸ le_max_left _ _
    · exact le_trans (ih h) (le_max_right _ _)

theorem aa_to_num_eq_zero_of_not_mem {c : Char} (hc : c ∉ amino_acids) :
    aa_to_num c = 0 := by
  unfold aa_to_num lookupOr0
  have hnone : aa_to_num_dict.find? (fun p => p.1 == c) = none := by
    rw [List.find?_eq_none]
    intro x hx
    simp only [aa_to_num_dict, List.mem_map] at hx
    obtain ⟨p, hp, rfl⟩ := hx
    have : p.2 ∈ amino_acids := List.snd_mem_of_mem_enum hp
    simp only [beq_iff_eq]
    intro h
    exact hc (h ▸ this)
  rw [hnone]

/-- C1.  Every string of an encoded corpus yields a vector of exactly the
corpus maximum length `L`; its first `len(S)` entries are the vocabulary
lookups of the characters of `S`, in order, and the remaining `L - len(S)`
entries are `0`.  The protein vocabulary maps the i-th letter of the fixed
order `"ACDEFGHIKLMNPQRSTVWY"` to `i + 1` and any other character to `0`. -/
theorem encode_sequences_spec (vocab : Char → Nat) (corpus : List (List Char))
    (S : List Char) (hS : S ∈ corpus) :
    (encodeWith vocab (maxLen corpus) S).length = maxLen corpus ∧
    (encodeWith vocab (maxLen corpus) S).take S.length = S.map vocab ∧
    (encodeWith vocab (maxLen corpus) S).drop S.length =
      List.replicate (maxLen corpus - S.length) 0 ∧
    (∀ i : Fin amino_acids.length, aa_to_num (amino_acids.get i) = i.1 + 1) ∧
    (∀ c : Char, c ∉ amino_acids → aa_to_num c = 0) := by
  have hlen : S.length ≤ maxLen corpus := le_maxLen hS
  refine ⟨?_, ?_, ?_, ?_, fun c hc => aa_to_num_eq_zero_of_not_mem hc⟩
  · simp [encodeWith, List.length_append, List.length_replicate]
    omega
  · have : S.length = (S.map vocab).length := (List.length_map S vocab).symm
    rw [encodeWith, this, List.take_left]
  · have : S.length = (S.map vocab).length := (List.length_map S vocab).symm
    rw [encodeWith, this, List.drop_left]
  · decide

/-- Witness for C1 on a concrete corpus: the two-string corpus
`["ACX", "MA"]` has maximum length 3; encoding `"MA"` pads with one zero
and encoding `"ACX"` maps the unknown residue `X` to 0. -/
theorem encode_sequences_spec_witness :
    (encodeWith aa_to_num (maxLen ["ACX".toList, "MA".toList]) "MA".toList).length =
        maxLen ["ACX".toList, "MA".toList] ∧
    (encodeWith aa_to_num (maxLen ["ACX".toList, "MA".toList]) "MA".toList).take 2 =
        "MA".toList.map aa_to_num ∧
    (encodeWith aa_to_num (maxLen ["ACX".toList, "MA".toList]) "MA".toList).drop 2 =
        List.replicate (maxLen ["ACX".toList, "MA".toList] - 2) 0 ∧
    (∀ i : Fin amino_acids.length, aa_to_num (amino_acids.get i) = i.1 + 1) ∧
    (∀ c : Char, c ∉ amino_acids → aa_to_num c = 0) :=
  encode_sequences_spec aa_to_num ["ACX".toList, "MA".toList] "MA".toList
    (by simp)

/-- C8.  The encoding of a string longer than the target length `L` does
NOT fail: `[vocab.get(ch, 0) for ch in s] + [0] * (L - len(s))` silently
returns a vector of length `len(s) ≠ L` (in Python `[0] * negative` is
empty).  At the concrete failing input `S = "AC"`, `L = 1`, the code
returns the length-2 vector `[1, 2]` instead of raising a
length-overflow error. -/
theorem encode_overflow_silent :
    encodeWith aa_to_num 1 "AC".toList = [1, 2] ∧
    (encodeWith aa_to_num 1 "AC".toList).length = 2 := by
  constructor <;> decide

/-! ## Dataset splitting (`train_test_split_proteins`)

The seed-determined shuffles of `sklearn.model_selection.train_test_split`
(`random_state=42`) and `pandas.DataFrame.sample` (`random_state=42`) are
modelled as explicit permutation parameters `σ` (of the unique-protein
list) and `τ` (of each per-protein group), constrained to be permutations
in the theorems. -/

section Split

variable {α π : Type} [DecidableEq π]

/-- Embedding of `pandas.Series.unique`: the distinct values of a column
in order of first occurrence. -/
def pdUnique : List π → List π
  | [] => []
  | a :: l => a :: (pdUnique l).filter (fun x => x ≠ a)

theorem mem_pdUnique {x : π} : ∀ {l : List π}, x ∈ pdUnique l ↔ x ∈ l
  | [] => Iff.rfl
  | a :: l => by
    have ih : x ∈ pdUnique l ↔ x ∈ l := mem_pdUnique
    simp only [pdUnique, List.mem_cons, List.mem_filter, ih, decide_eq_true_eq]
    by_cases hx : x = a <;> simp [hx]

theorem nodup_pdUnique : ∀ (l : List π), (pdUnique l).Nodup
  | [] => List.nodup_nil
  | a :: l => by
    refine List.Nodup.cons ?_ ((nodup_pdUnique l).filter _)
    intro ha
    rcases List.mem_filter.mp ha with ⟨-, hne⟩
    simp at hne

/-- Fuelled floor-log₂ (structural recursion on the fuel keeps it
kernel-evaluable). -/
def log2F : ℕ → ℕ → ℕ
  | 0, _ => 0
  | f + 1, n => if 2 ≤ n then log2F f (n / 2) + 1 else 0

/-- Floor of log₂ n for n ≥ 1; the value itself is enough fuel. -/
def flog2 (n : ℕ) : ℕ := log2F n n

theorem log2F_spec : ∀ (f n : ℕ), 1 ≤ n → n < 2 ^ f →
    2 ^ log2F f n ≤ n ∧ n < 2 ^ (log2F f n + 1) := by
  intro f
  induction f with
  | zero => intro n h1 h2; simp at h2; omega
  | succ f ih =>
    intro n h1 h2
    rw [log2F]
    by_cases hn2 : 2 ≤ n
    · rw [if_pos hn2]
      have hd1 : 1 ≤ n / 2 := by omega
      have hd2 : n / 2 < 2 ^ f := by
        rw [pow_succ] at h2
        omega
      have hrec := ih (n / 2) hd1 hd2
      have e1 : 2 ^ (log2F f (n / 2) + 1) = 2 ^ log2F f (n / 2) * 2 := pow_succ _ _
      have e2 : 2 ^ (log2F f (n / 2) + 1 + 1) = 2 ^ (log2F f (n / 2) + 1) * 2 :=
        pow_succ _ _
      omega
    · rw [if_neg hn2]
      simp only [pow_zero, zero_add, pow_one]
      omega

theorem flog2_spec {n : ℕ} (hn : 1 ≤ n) :
    2 ^ flog2 n ≤ n ∧ n < 2 ^ (flog2 n + 1) :=
  log2F_spec n n hn (Nat.lt_two_pow n)

/-- The binary exponent of one IEEE-754 rounding of `num / den`:
`rnExp num den = ⌊log₂ (num / den)⌋` for `num, den ≥ 1`. -/
def rnExp (num den : ℕ) : ℤ :=
  (flog2 num : ℤ) - (flog2 den : ℤ) -
    (if num * 2 ^ flog2 den < den * 2 ^ flog2 num then 1 else 0)

/-- Scaled numerator: `rnN / rnD = (num / den) · 2^(52 − rnExp)` lies in
`[2^52, 2^53)`. -/
def rnN (num den : ℕ) : ℕ := num * 2 ^ (-(rnExp num den - 52)).toNat

/-- Scaled denominator (see `rnN`). -/
def rnD (num den : ℕ) : ℕ := den * 2 ^ (rnExp num den - 52).toNat

/-- The 53-bit mantissa of `num / den` under round-to-nearest,
ties-to-even: the nearest integer to `rnN / rnD`, even on ties. -/
def rnMant (num den : ℕ) : ℕ :=
  if 2 * (rnN num den % rnD num den) < rnD num den then rnN num den / rnD num den
  else if rnD num den < 2 * (rnN num den % rnD num den) then
    rnN num den / rnD num den + 1
  else if (rnN num den / rnD num den) % 2 = 0 then rnN num den / rnD num den
  else rnN num den / rnD num den + 1

/-- One IEEE-754 binary64 rounding (round to nearest, ties to even, 53
significant bits, unbounded exponent range — exact on normal,
non-overflowing values) of the positive rational `num / den`, as a
mantissa–exponent pair: the rounded value is `m · 2^t`. -/
def rn53 (num den : ℕ) : ℕ × ℤ := (rnMant num den, rnExp num den - 52)

/-- The rational value of a mantissa–exponent pair. -/
def rnVal (mt : ℕ × ℤ) : ℚ := (mt.1 : ℚ) * 2 ^ mt.2

/-- Embedding of the scikit-learn held-out-size computation
`n_test = ceil(test_size * n_samples)` with `test_size = 42 / n` as in
the source: the division `42 / n` and the product `test_size * n` are
each computed in IEEE-754 double precision (one rounding each, via
`rn53`), then the exact ceiling of the resulting double is taken.
Faithful for `n < 2^53`, where the integer operands convert to doubles
exactly.  The double rounding makes the result 43 rather than 42 for
some sizes (the first being n = 75). -/
def nTestOf (n : ℕ) : ℕ :=
  let d := rn53 42 n
  let p := rn53 (d.1 * n * 2 ^ d.2.toNat) (2 ^ (-d.2).toNat)
  if 0 ≤ p.2 then p.1 * 2 ^ p.2.toNat
  else (p.1 + 2 ^ (-p.2).toNat - 1) / 2 ^ (-p.2).toNat

theorem rnExp_spec (num den : ℕ) (hnum : 1 ≤ num) (hden : 1 ≤ den) :
    (2 : ℚ) ^ rnExp num den ≤ (num : ℚ) / den ∧
      (num : ℚ) / den < 2 ^ (rnExp num den + 1) := by
  obtain ⟨ha1, ha2⟩ := flog2_spec hnum
  obtain ⟨hb1, hb2⟩ := flog2_spec hden
  have hden0 : (0 : ℚ) < den := by exact_mod_cast hden
  have hQa1 : (2 : ℚ) ^ (flog2 num : ℤ) ≤ num := by
    rw [zpow_natCast]; exact_mod_cast ha1
  have hQa2 : (num : ℚ) < 2 ^ ((flog2 num : ℤ) + 1) := by
    rw [show ((flog2 num : ℤ) + 1) = ((flog2 num + 1 : ℕ) : ℤ) by push_cast; ring,
      zpow_natCast]
    exact_mod_cast ha2
  have hQb1 : (2 : ℚ) ^ (flog2 den : ℤ) ≤ den := by
    rw [zpow_natCast]; exact_mod_cast hb1
  have hQb2 : (den : ℚ) < 2 ^ ((flog2 den : ℤ) + 1) := by
    rw [show ((flog2 den : ℤ) + 1) = ((flog2 den + 1 : ℕ) : ℤ) by push_cast; ring,
      zpow_natCast]
    exact_mod_cast hb2
  have hzp : ∀ s : ℤ, (0 : ℚ) < 2 ^ s := fun s => zpow_pos (by norm_num) s
  have h2ne : (2 : ℚ) ≠ 0 := by norm_num
  unfold rnExp
  by_cases hadj : num * 2 ^ flog2 den < den * 2 ^ flog2 num
  · rw [if_pos hadj]
    have hQadj : (num : ℚ) * 2 ^ (flog2 den : ℤ) < (den : ℚ) * 2 ^ (flog2 num : ℤ) := by
      rw [zpow_natCast, zpow_natCast]; exact_mod_cast hadj
    constructor
    · rw [show (flog2 num : ℤ) - (flog2 den : ℤ) - 1
          = (flog2 num : ℤ) - ((flog2 den : ℤ) + 1) by ring,
        zpow_sub₀ h2ne, div_le_div_iff (hzp _) hden0]
      exact mul_le_mul hQa1 (le_of_lt hQb2) (le_of_lt hden0)
        (le_trans (le_of_lt (hzp _)) hQa1)
    · rw [show (flog2 num : ℤ) - (flog2 den : ℤ) - 1 + 1
          = (flog2 num : ℤ) - (flog2 den : ℤ) by ring,
        zpow_sub₀ h2ne, div_lt_div_iff hden0 (hzp _)]
      linarith [hQadj]
  · rw [if_neg hadj]
    push_neg at hadj
    have hQadj : (den : ℚ) * 2 ^ (flog2 num : ℤ) ≤ (num : ℚ) * 2 ^ (flog2 den : ℤ) := by
      rw [zpow_natCast, zpow_natCast]; exact_mod_cast hadj
    simp only [sub_zero]
    constructor
    · rw [zpow_sub₀ h2ne, div_le_div_iff (hzp _) hden0]
      linarith [hQadj]
    · rw [show (flog2 num : ℤ) - (flog2 den : ℤ) + 1
          = ((flog2 num : ℤ) + 1) - (flog2 den : ℤ) by ring,
        zpow_sub₀ h2ne, div_lt_div_iff hden0 (hzp _)]
      exact mul_lt_mul hQa2 hQb1 (hzp _) (le_of_lt (hzp _))

theorem rnND_eq (num den : ℕ) :
    (rnN num den : ℚ) / (rnD num den : ℚ)
      = ((num : ℚ) / den) * 2 ^ (-(rnExp num den - 52)) := by
  unfold rnN rnD
  push_cast
  rw [mul_div_mul_comm]
  congr 1
  rw [← zpow_natCast (2 : ℚ) (-(rnExp num den - 52)).toNat,
    ← zpow_natCast (2 : ℚ) (rnExp num den - 52).toNat,
    ← zpow_sub₀ (by norm_num : (2 : ℚ) ≠ 0)]
  congr 1
  have h := Int.toNat_sub_toNat_neg (rnExp num den - 52)
  omega

theorem rnS_ge (num den : ℕ) (hnum : 1 ≤ num) (hden : 1 ≤ den) :
    ((2 ^ 52 : ℕ) : ℚ) ≤ (rnN num den : ℚ) / (rnD num den : ℚ) := by
  rw [rnND_eq num den]
  have h1 := (rnExp_spec num den hnum hden).1
  have hzp : (0 : ℚ) < 2 ^ (-(rnExp num den - 52)) := zpow_pos (by norm_num) _
  have key : ((2 ^ 52 : ℕ) : ℚ)
      = (2 : ℚ) ^ rnExp num den * 2 ^ (-(rnExp num den - 52)) := by
    rw [← zpow_add₀ (by norm_num : (2 : ℚ) ≠ 0),
      show rnExp num den + -(rnExp num den - 52) = ((52 : ℕ) : ℤ) by push_cast; ring,
      zpow_natCast]
    push_cast
    ring
  rw [key]
  exact mul_le_mul_of_nonneg_right h1 (le_of_lt hzp)

theorem rnD_pos (num den : ℕ) (hden : 1 ≤ den) : 0 < rnD num den := by
  unfold rnD
  exact Nat.mul_pos (by omega) (Nat.two_pow_pos _)

theorem rnMant_close (num den : ℕ) (hden : 1 ≤ den) :
    |(rnMant num den : ℚ) - (rnN num den : ℚ) / (rnD num den : ℚ)| ≤ 1 / 2 := by
  have hD := rnD_pos num den hden
  have hD0 : (0 : ℚ) < (rnD num den : ℚ) := by exact_mod_cast hD
  have hsplit : (rnN num den : ℚ) / (rnD num den : ℚ)
      = ((rnN num den / rnD num den : ℕ) : ℚ)
        + ((rnN num den % rnD num den : ℕ) : ℚ) / (rnD num den : ℚ) := by
    have hmod : ((rnD num den : ℚ)) * ((rnN num den / rnD num den : ℕ) : ℚ)
        + ((rnN num den % rnD num den : ℕ) : ℚ) = (rnN num den : ℚ) := by
      exact_mod_cast Nat.div_add_mod (rnN num den) (rnD num den)
    rw [← hmod, add_div, mul_div_cancel_left₀ _ (ne_of_gt hD0)]
  have hr : rnN num den % rnD num den < rnD num den := Nat.mod_lt _ hD
  unfold rnMant
  by_cases h1 : 2 * (rnN num den % rnD num den) < rnD num den
  · rw [if_pos h1, hsplit]
    have hrd : ((rnN num den % rnD num den : ℕ) : ℚ) / (rnD num den : ℚ) < 1 / 2 := by
      rw [div_lt_div_iff hD0 (by norm_num : (0 : ℚ) < 2)]
      have hh : (rnN num den % rnD num den) * 2 < 1 * rnD num den := by omega
      exact_mod_cast hh
    rw [show ((rnN num den / rnD num den : ℕ) : ℚ)
        - (((rnN num den / rnD num den : ℕ) : ℚ)
          + ((rnN num den % rnD num den : ℕ) : ℚ) / (rnD num den : ℚ))
        = -(((rnN num den % rnD num den : ℕ) : ℚ) / (rnD num den : ℚ)) by ring,
      abs_neg, abs_of_nonneg (by positivity)]
    linarith
  · by_cases h2 : rnD num den < 2 * (rnN num den % rnD num den)
    · rw [if_neg h1, if_pos h2, hsplit]
      have hrd1 : (1 : ℚ) / 2 < ((rnN num den % rnD num den : ℕ) : ℚ) / (rnD num den : ℚ) := by
        rw [div_lt_div_iff (by norm_num : (0 : ℚ) < 2) hD0]
        have hh : 1 * rnD num den < (rnN num den % rnD num den) * 2 := by omega
        exact_mod_cast hh
      have hrd2 : ((rnN num den % rnD num den : ℕ) : ℚ) / (rnD num den : ℚ) < 1 := by
        rw [div_lt_one hD0]
        exact_mod_cast hr
      push_cast
      rw [show (((rnN num den / rnD num den : ℕ) : ℚ) + 1)
          - (((rnN num den / rnD num den : ℕ) : ℚ)
            + ((rnN num den % rnD num den : ℕ) : ℚ) / (rnD num den : ℚ))
          = 1 - ((rnN num den % rnD num den : ℕ) : ℚ) / (rnD num den : ℚ) by ring,
        abs_of_nonneg (by linarith)]
      linarith
    · rw [if_neg h1, if_neg h2]
      have h3 : (rnN num den % rnD num den) * 2 = 1 * rnD num den := by omega
      have hrd : ((rnN num den % rnD num den : ℕ) : ℚ) / (rnD num den : ℚ) = 1 / 2 := by
        rw [div_eq_div_iff (ne_of_gt hD0) (by norm_num : (2 : ℚ) ≠ 0)]
        exact_mod_cast h3
      by_cases h4 : (rnN num den / rnD num den) % 2 = 0
      · rw [if_pos h4, hsplit, hrd,
          show ((rnN num den / rnD num den : ℕ) : ℚ)
            - (((rnN num den / rnD num den : ℕ) : ℚ) + 1 / 2) = -(1 / 2) by ring,
          abs_neg, abs_of_nonneg (by norm_num : (0 : ℚ) ≤ 1 / 2)]
      · rw [if_neg h4, hsplit, hrd]
        push_cast
        rw [show (((rnN num den / rnD num den : ℕ) : ℚ) + 1)
            - (((rnN num den / rnD num den : ℕ) : ℚ) + 1 / 2) = 1 / 2 by ring,
          abs_of_nonneg (by norm_num : (0 : ℚ) ≤ 1 / 2)]

theorem rnMant_ge (num den : ℕ) (hnum : 1 ≤ num) (hden : 1 ≤ den) :
    2 ^ 52 ≤ rnMant num den := by
  have hS := rnS_ge num den hnum hden
  have h1 := (abs_le.mp (rnMant_close num den hden)).1
  have h3 : ((2 ^ 52 - 1 : ℕ) : ℚ) < (rnMant num den : ℚ) := by
    push_cast
    linarith
  have h4 : 2 ^ 52 - 1 < rnMant num den := by exact_mod_cast h3
  omega

theorem rn53_err (num den : ℕ) (hnum : 1 ≤ num) (hden : 1 ≤ den) :
    |rnVal (rn53 num den) - (num : ℚ) / den|
      ≤ ((num : ℚ) / den) * 2 ^ (-53 : ℤ) := by
  have hclose := rnMant_close num den hden
  have hE := (rnExp_spec num den hnum hden).1
  have h2ne : (2 : ℚ) ≠ 0 := by norm_num
  have hzp : (0 : ℚ) < 2 ^ (rnExp num den - 52) := zpow_pos (by norm_num) _
  have hq : (num : ℚ) / den
      = ((rnN num den : ℚ) / (rnD num den : ℚ)) * 2 ^ (rnExp num den - 52) := by
    rw [rnND_eq num den, mul_assoc, ← zpow_add₀ h2ne,
      show -(rnExp num den - 52) + (rnExp num den - 52) = 0 by ring, zpow_zero,
      mul_one]
  have habs : |rnVal (rn53 num den) - (num : ℚ) / den|
      ≤ (1 / 2) * 2 ^ (rnExp num den - 52) := by
    rw [show rnVal (rn53 num den) = (rnMant num den : ℚ) * 2 ^ (rnExp num den - 52)
        from rfl, hq,
      show (rnMant num den : ℚ) * 2 ^ (rnExp num den - 52)
          - ((rnN num den : ℚ) / (rnD num den : ℚ)) * 2 ^ (rnExp num den - 52)
        = ((rnMant num den : ℚ) - (rnN num den : ℚ) / (rnD num den : ℚ))
            * 2 ^ (rnExp num den - 52) by ring,
      abs_mul, abs_of_pos hzp]
    exact mul_le_mul_of_nonneg_right hclose (le_of_lt hzp)
  calc |rnVal (rn53 num den) - (num : ℚ) / den|
      ≤ (1 / 2) * 2 ^ (rnExp num den - 52) := habs
    _ = 2 ^ rnExp num den * 2 ^ (-53 : ℤ) := by
        rw [show (1 / 2 : ℚ) = (2 : ℚ) ^ (-1 : ℤ) by norm_num,
          ← zpow_add₀ h2ne, ← zpow_add₀ h2ne,
          show (-1 : ℤ) + (rnExp num den - 52) = rnExp num den + -53 by ring]
    _ ≤ ((num : ℚ) / den) * 2 ^ (-53 : ℤ) :=
        mul_le_mul_of_nonneg_right hE (le_of_lt (zpow_pos (by norm_num) _))

theorem nTestOf_bounds {n : ℕ} (hn : 42 < n) :
    42 ≤ nTestOf n ∧ nTestOf n ≤ 43 := by
  have hm1 := rnMant_ge 42 n (by norm_num) (by omega)
  have he1 := rn53_err 42 n (by norm_num) (by omega)
  have hnQ : (0 : ℚ) < n := by exact_mod_cast (by omega : 0 < n)
  have hq1n : ((42 : ℚ) / n) * n = 42 := by field_simp
  set m1 := rnMant 42 n with hm1def
  set t1 : ℤ := rnExp 42 n - 52 with ht1def
  set num2 := m1 * n * 2 ^ t1.toNat with hnum2def
  set den2 := 2 ^ (-t1).toNat with hden2def
  have hnum2 : 1 ≤ num2 := by
    have : 1 ≤ m1 := le_trans (Nat.one_le_two_pow) hm1
    have h2 : 1 ≤ 2 ^ t1.toNat := Nat.one_le_two_pow
    calc 1 = 1 * 1 * 1 := by ring
      _ ≤ m1 * n * 2 ^ t1.toNat := by
          exact Nat.mul_le_mul (Nat.mul_le_mul this (by omega)) h2
  have hden2 : 1 ≤ den2 := Nat.one_le_two_pow
  have hm2 := rnMant_ge num2 den2 hnum2 hden2
  have he2 := rn53_err num2 den2 hnum2 hden2
  have hfrac : (num2 : ℚ) / den2 = rnVal (rn53 42 n) * n := by
    have hiden : (t1.toNat : ℤ) = t1 + ((-t1).toNat : ℤ) := by
      have := Int.toNat_sub_toNat_neg t1
      omega
    have hbne : (2 : ℚ) ^ (((-t1).toNat : ℕ) : ℤ) ≠ 0 :=
      ne_of_gt (zpow_pos (by norm_num) _)
    rw [hnum2def, hden2def]
    push_cast
    rw [show rnVal (rn53 42 n) = (m1 : ℚ) * 2 ^ t1 from rfl,
      ← zpow_natCast (2 : ℚ) t1.toNat, ← zpow_natCast (2 : ℚ) (-t1).toNat, hiden,
      zpow_add₀ (by norm_num : (2 : ℚ) ≠ 0), div_eq_iff hbne]
    ring
  set v1n : ℚ := rnVal (rn53 42 n) * n with hv1n
  have hv1nb : |v1n - 42| ≤ 42 * (1 / 2 ^ 53) := by
    have h := abs_le.mp he1
    have hw : (0 : ℚ) ≤ n := le_of_lt hnQ
    have h1 := mul_le_mul_of_nonneg_right h.1 hw
    have h2 := mul_le_mul_of_nonneg_right h.2 hw
    have hu : ((2 : ℚ) ^ (-53 : ℤ)) = 1 / 2 ^ 53 := by norm_num
    rw [abs_le]
    constructor
    · nlinarith [hq1n, hu, h1]
    · nlinarith [hq1n, hu, h2]
  have hup : v1n ≤ 42 + 42 / 2 ^ 53 := by
    have := (abs_le.mp hv1nb).2
    linarith
  have hlo : 42 - 42 / 2 ^ 53 ≤ v1n := by
    have := (abs_le.mp hv1nb).1
    linarith
  have hv1n_pos : 0 < v1n := by
    have : (0 : ℚ) < 42 - 42 / 2 ^ 53 := by norm_num
    linarith
  set v2 : ℚ := rnVal (rn53 num2 den2) with hv2def
  have hv2b : |v2 - v1n| ≤ v1n * (1 / 2 ^ 53) := by
    have hu : ((2 : ℚ) ^ (-53 : ℤ)) = 1 / 2 ^ 53 := by norm_num
    rw [← hu]
    have := he2
    rw [hfrac] at this
    exact this
  have k1 : v1n * (1 / 2 ^ 53) ≤ (42 + 42 / 2 ^ 53) * (1 / 2 ^ 53) :=
    mul_le_mul_of_nonneg_right hup (by norm_num)
  have h43 : v2 < 43 := by
    have h := (abs_le.mp hv2b).2
    have hnum : (42 + 42 / 2 ^ 53 : ℚ) + (42 + 42 / 2 ^ 53) * (1 / 2 ^ 53) < 43 := by
      norm_num
    linarith
  have h41 : 41 < v2 := by
    have h := (abs_le.mp hv2b).1
    have hnum : (41 : ℚ) < (42 - 42 / 2 ^ 53) - (42 + 42 / 2 ^ 53) * (1 / 2 ^ 53) := by
      norm_num
    linarith
  have hm2Q : ((2 ^ 52 : ℕ) : ℚ) ≤ ((rn53 num2 den2).1 : ℚ) := by
    exact_mod_cast hm2
  have ht2neg : (rn53 num2 den2).2 < 0 := by
    by_contra hcon
    push_neg at hcon
    have h1 : (1 : ℚ) ≤ 2 ^ (rn53 num2 den2).2 := by
      rw [← Int.toNat_of_nonneg hcon, zpow_natCast]
      exact one_le_pow₀ (by norm_num)
    have h2 : ((2 ^ 52 : ℕ) : ℚ) ≤ v2 := by
      calc ((2 ^ 52 : ℕ) : ℚ) ≤ ((rn53 num2 den2).1 : ℚ) := hm2Q
        _ = ((rn53 num2 den2).1 : ℚ) * 1 := (mul_one _).symm
        _ ≤ ((rn53 num2 den2).1 : ℚ) * 2 ^ (rn53 num2 den2).2 :=
            mul_le_mul_of_nonneg_left h1 (by positivity)
        _ = v2 := rfl
    have : ((2 ^ 52 : ℕ) : ℚ) < 43 := lt_of_le_of_lt h2 h43
    norm_num at this
  set k := (-(rn53 num2 den2).2).toNat with hkdef
  have hkprop : 1 ≤ k ∧ (rn53 num2 den2).2 = -(k : ℤ) := by omega
  have h2k : (2 : ℚ) ^ (rn53 num2 den2).2 = 1 / ((2 ^ k : ℕ) : ℚ) := by
    rw [hkprop.2, zpow_neg, zpow_natCast]
    push_cast
    rw [inv_eq_one_div]
  have h2kQ : (0 : ℚ) < ((2 ^ k : ℕ) : ℚ) := by
    exact_mod_cast Nat.two_pow_pos k
  have hv2k : v2 = ((rn53 num2 den2).1 : ℚ) / ((2 ^ k : ℕ) : ℚ) := by
    rw [hv2def, show rnVal (rn53 num2 den2)
        = ((rn53 num2 den2).1 : ℚ) * 2 ^ (rn53 num2 den2).2 from rfl, h2k]
    ring
  have hm2lo : 41 * 2 ^ k < (rn53 num2 den2).1 := by
    have h := h41
    rw [hv2k, lt_div_iff h2kQ] at h
    have hq : (41 : ℚ) * ((2 ^ k : ℕ) : ℚ) < ((rn53 num2 den2).1 : ℚ) := h
    exact_mod_cast hq
  have hm2hi : (rn53 num2 den2).1 < 43 * 2 ^ k := by
    have h := h43
    rw [hv2k, div_lt_iff h2kQ] at h
    have hq : ((rn53 num2 den2).1 : ℚ) < 43 * ((2 ^ k : ℕ) : ℚ) := h
    exact_mod_cast hq
  have hgoal : nTestOf n
      = ((rn53 num2 den2).1 + 2 ^ k - 1) / 2 ^ k := by
    show (if 0 ≤ (rn53 num2 den2).2 then
        (rn53 num2 den2).1 * 2 ^ ((rn53 num2 den2).2).toNat
      else ((rn53 num2 den2).1 + 2 ^ (-(rn53 num2 den2).2).toNat - 1)
        / 2 ^ (-(rn53 num2 den2).2).toNat) = _
    rw [if_neg (by omega)]
  rw [hgoal]
  have hX : 0 < 2 ^ k := Nat.two_pow_pos k
  constructor
  · rw [Nat.le_div_iff_mul_le hX]
    omega
  · have h44 : ((rn53 num2 den2).1 + 2 ^ k - 1) / 2 ^ k < 44 := by
      rw [Nat.div_lt_iff_lt_mul hX]
      omega
    omega

/-- Embedding of `train_test_split(proteins, test_size=42/len(proteins),
random_state=42)`: after the seed-determined shuffle `σ`, the first
`n_test` entries form the test set and the rest the train set. -/
def train_test_split_unique (σ : List π → List π) (l : List π) : List π × List π :=
  ((σ l).drop (nTestOf l.length), (σ l).take (nTestOf l.length))

/-- Embedding of `round(0.7 * k)`, the number of rows drawn by
`DataFrame.sample(frac=0.7)` from a group of `k` rows (round half-up on
exact rationals). -/
def sampleSize (k : Nat) : Nat := (7 * k + 5) / 10

/-- Embedding of `train_test_split_proteins(df, new_proteins)`.

With `new_proteins = true` (Policy A), the unique protein identifiers are
split by `train_test_split` and the rows filtered by membership of their
protein in either side.  With `new_proteins = false` (Policy B), each
per-protein group is shuffled by the seed-determined permutation `τ`, its
first `round(0.7·k)` rows go to train (`sample(frac=0.7)`) and the
remaining rows to test (`drop(train_part.index)`); the per-protein parts
are concatenated (`pd.concat`). -/
def train_test_split_proteins (σ : List π → List π) (τ : π → List α → List α)
    (protein : α → π) (df : List α) (new_proteins : Bool) : List α × List α :=
  if new_proteins then
    let proteins := pdUnique (df.map protein)
    let tt := train_test_split_unique σ proteins
    (df.filter (fun r => decide (protein r ∈ tt.1)),
     df.filter (fun r => decide (protein r ∈ tt.2)))
  else
    let ps := pdUnique (df.map protein)
    ((ps.map (fun p =>
        let g := df.filter (fun r => decide (protein r = p))
        (τ p g).take (sampleSize g.length))).flatten,
     (ps.map (fun p =>
        let g := df.filter (fun r => decide (protein r = p))
        (τ p g).drop (sampleSize g.length))).flatten)

/-- C2 (amended).  Under Policy A (`new_proteins=True`), for every dataset
with more than 42 distinct protein identifiers and any seed-determined
shuffle, the protein identifiers occurring in the test partition are
disjoint from those occurring in the train partition, and the number of
distinct protein identifiers occurring in the test partition is exactly
`nTestOf n` — the double-precision `ceil(float(42/n) * n)` for `n`
distinct proteins — which always lies between 42 and 43, but is 43
rather than 42 for some dataset sizes (the first being `n = 75`; see the
counterexample). -/
theorem policyA_new_proteins_spec (σ : List π → List π) (τ : π → List α → List α)
    (protein : α → π) (df : List α)
    (hσ : ∀ l : List π, (σ l).Perm l)
    (h42 : 42 < (pdUnique (df.map protein)).length) :
    (∀ p, p ∈ (train_test_split_proteins σ τ protein df true).2.map protein →
        p ∉ (train_test_split_proteins σ τ protein df true).1.map protein) ∧
    (pdUnique ((train_test_split_proteins σ τ protein df true).2.map protein)).length
      = nTestOf (pdUnique (df.map protein)).length ∧
    42 ≤ nTestOf (pdUnique (df.map protein)).length ∧
    nTestOf (pdUnique (df.map protein)).length ≤ 43 := by
  set ps := pdUnique (df.map protein) with hps
  have hperm : (σ ps).Perm ps := hσ ps
  have hnd_ps : ps.Nodup := nodup_pdUnique _
  have hnd_s : (σ ps).Nodup := hperm.nodup_iff.mpr hnd_ps
  have hlen : (σ ps).length = ps.length := hperm.length_eq
  have hb := nTestOf_bounds h42
  set k := nTestOf ps.length with hk
  have hchar : train_test_split_proteins σ τ protein df true =
      (df.filter (fun r => decide (protein r ∈ (σ ps).drop k)),
       df.filter (fun r => decide (protein r ∈ (σ ps).take k))) := by
    simp only [train_test_split_proteins, if_true, train_test_split_unique,
      ← hps, ← hk]
  rw [hchar]
  have hmem_test : ∀ x, x ∈ (df.filter
      (fun r => decide (protein r ∈ (σ ps).take k))).map protein ↔
      x ∈ (σ ps).take k := by
    intro x
    constructor
    · intro hx
      rcases List.mem_map.mp hx with ⟨r, hr, rfl⟩
      rcases List.mem_filter.mp hr with ⟨-, hdec⟩
      exact of_decide_eq_true hdec
    · intro hx
      have hx_s : x ∈ σ ps := List.Sublist.mem hx (List.take_sublist _ _)
      have hx_ps : x ∈ ps := hperm.mem_iff.mp hx_s
      rcases List.mem_map.mp (mem_pdUnique.mp (hps ▸ hx_ps)) with ⟨r, hr, rfl⟩
      exact List.mem_map.mpr ⟨r, List.mem_filter.mpr ⟨hr, decide_eq_true hx⟩, rfl⟩
  refine ⟨?_, ?_, hb.1, hb.2⟩
  · intro p hpte hptr
    have hp_take : p ∈ (σ ps).take k := (hmem_test p).mp hpte
    have hp_drop : p ∈ (σ ps).drop k := by
      rcases List.mem_map.mp hptr with ⟨r, hr, rfl⟩
      rcases List.mem_filter.mp hr with ⟨-, hdec⟩
      exact of_decide_eq_true hdec
    exact List.disjoint_take_drop hnd_s (le_refl k) hp_take hp_drop
  · have hnd_take : ((σ ps).take k).Nodup :=
      List.Nodup.sublist (List.take_sublist _ _) hnd_s
    have hpm : (pdUnique ((df.filter
        (fun r => decide (protein r ∈ (σ ps).take k))).map protein)).Perm
        ((σ ps).take k) :=
      (List.perm_ext_iff_of_nodup (nodup_pdUnique _) hnd_take).mpr
        (fun a => (mem_pdUnique).trans (hmem_test a))
    rw [hpm.length_eq, List.length_take]
    omega

set_option maxRecDepth 40000 in
/-- C2 counterexample to "exactly 42": on a dataset of 75 distinct
proteins (one row each, identity shuffle), the double-precision
`ceil(float(42/75) * 75)` is 43, so the program holds out 43 protein
identifiers in the test partition, not 42. -/
theorem policyA_new_proteins_cex :
    (pdUnique ((train_test_split_proteins id (fun _ g => g) id
        (List.range 75) true).2.map id)).length = 43 ∧
    ¬ (pdUnique ((train_test_split_proteins id (fun _ g => g) id
        (List.range 75) true).2.map id)).length = 42 := by
  decide

/-- Witness for C2: the dataset `0, 1, …, 42` of 43 distinct proteins
(one row each), with the identity shuffle. -/
theorem policyA_new_proteins_spec_witness :
    (∀ p, p ∈ (train_test_split_proteins id (fun _ g => g) id
          (List.range 43) true).2.map id →
        p ∉ (train_test_split_proteins id (fun _ g => g) id
          (List.range 43) true).1.map id) ∧
    (pdUnique ((train_test_split_proteins id (fun _ g => g) id
          (List.range 43) true).2.map id)).length
      = nTestOf (pdUnique ((List.range 43).map id)).length ∧
    42 ≤ nTestOf (pdUnique ((List.range 43).map id)).length ∧
    nTestOf (pdUnique ((List.range 43).map id)).length ≤ 43 :=
  policyA_new_proteins_spec id (fun _ g => g) id (List.range 43)
    (fun l => List.Perm.refl l) (by decide)

theorem sum_map_eq_single : ∀ (ps : List π) (f : π → Nat) (p : π), ps.Nodup →
    p ∈ ps → (∀ q ∈ ps, q ≠ p → f q = 0) → (ps.map f).sum = f p
  | [], _, _, _, hp, _ => absurd hp (List.not_mem_nil _)
  | a :: l, f, p, hnd, hp, hz => by
    rcases List.nodup_cons.mp hnd with ⟨ha, hl⟩
    rcases List.mem_cons.mp hp with rfl | hp'
    · simp only [List.map_cons, List.sum_cons]
      have hzl : ∀ x ∈ l.map f, x = 0 := by
        intro x hx
        rcases List.mem_map.mp hx with ⟨q, hq, rfl⟩
        exact hz q (List.mem_cons_of_mem _ hq) (fun h => ha (h ▸ hq))
      rw [List.sum_eq_zero hzl]
      omega
    · simp only [List.map_cons, List.sum_cons]
      rw [hz a (List.mem_cons_self _ _) (fun h => ha (h ▸ hp')),
        sum_map_eq_single l f p hl hp'
          (fun q hq hne => hz q (List.mem_cons_of_mem _ hq) hne)]
      omega

theorem sum_map_add (l : List π) (f g : π → Nat) :
    (l.map f).sum + (l.map g).sum = (l.map (fun x => f x + g x)).sum := by
  induction l with
  | nil => rfl
  | cons a t ih => simp only [List.map_cons, List.sum_cons]; omega

theorem policyB_eq (σ : List π → List π) (τ : π → List α → List α)
    (protein : α → π) (df : List α) :
    train_test_split_proteins σ τ protein df false =
      (((pdUnique (df.map protein)).map (fun p =>
          (τ p (df.filter (fun r => decide (protein r = p)))).take
            (sampleSize (df.filter (fun r => decide (protein r = p))).length))).flatten,
       ((pdUnique (df.map protein)).map (fun p =>
          (τ p (df.filter (fun r => decide (protein r = p)))).drop
            (sampleSize (df.filter (fun r => decide (protein r = p))).length))).flatten) := by
  simp [train_test_split_proteins]

theorem mem_group {τ : π → List α → List α} (hτ : ∀ p g, (τ p g).Perm g)
    {protein : α → π} {df : List α} {p : π} {a : α}
    (ha : a ∈ τ p (df.filter (fun r => decide (protein r = p)))) :
    a ∈ df ∧ protein a = p := by
  have := List.mem_filter.mp ((hτ p _).mem_iff.mp ha)
  exact ⟨this.1, of_decide_eq_true this.2⟩

theorem countP_policyB_train (σ : List π → List π) (τ : π → List α → List α)
    (protein : α → π) (df : List α) (hτ : ∀ p g, (τ p g).Perm g) (p : π)
    (hp : p ∈ pdUnique (df.map protein)) :
    (train_test_split_proteins σ τ protein df false).1.countP
        (fun r => decide (protein r = p))
      = sampleSize (df.countP (fun r => decide (protein r = p))) := by
  rw [policyB_eq, List.countP_flatten, List.map_map]
  rw [sum_map_eq_single _ _ p (nodup_pdUnique _) hp ?side]
  case side =>
    intro q hq hne
    simp only [Function.comp_apply]
    rw [List.countP_eq_zero]
    intro a ha
    have hm := mem_group hτ (List.Sublist.mem ha (List.take_sublist _ _))
    simp [hm.2, hne]
  · simp only [Function.comp_apply]
    have hall : ∀ a ∈ (τ p (df.filter (fun r => decide (protein r = p)))).take
        (sampleSize (df.filter (fun r => decide (protein r = p))).length),
        decide (protein a = p) = true := by
      intro a ha
      have hm := mem_group hτ (List.Sublist.mem ha (List.take_sublist _ _))
      simp [hm.2]
    rw [List.countP_eq_length.mpr hall, List.length_take,
      (hτ p _).length_eq, List.countP_eq_length_filter]
    have : sampleSize (df.filter (fun r => decide (protein r = p))).length ≤
        (df.filter (fun r => decide (protein r = p))).length := by
      unfold sampleSize; omega
    omega

theorem countP_policyB_test (σ : List π → List π) (τ : π → List α → List α)
    (protein : α → π) (df : List α) (hτ : ∀ p g, (τ p g).Perm g) (p : π)
    (hp : p ∈ pdUnique (df.map protein)) :
    (train_test_split_proteins σ τ protein df false).2.countP
        (fun r => decide (protein r = p))
      = df.countP (fun r => decide (protein r = p))
        - sampleSize (df.countP (fun r => decide (protein r = p))) := by
  rw [policyB_eq, List.countP_flatten, List.map_map]
  rw [sum_map_eq_single _ _ p (nodup_pdUnique _) hp ?side]
  case side =>
    intro q hq hne
    simp only [Function.comp_apply]
    rw [List.countP_eq_zero]
    intro a ha
    have hm := mem_group hτ (List.Sublist.mem ha (List.drop_sublist _ _))
    simp [hm.2, hne]
  · simp only [Function.comp_apply]
    have hall : ∀ a ∈ (τ p (df.filter (fun r => decide (protein r = p)))).drop
        (sampleSize (df.filter (fun r => decide (protein r = p))).length),
        decide (protein a = p) = true := by
      intro a ha
      have hm := mem_group hτ (List.Sublist.mem ha (List.drop_sublist _ _))
      simp [hm.2]
    rw [List.countP_eq_length.mpr hall, List.length_drop,
      (hτ p _).length_eq, List.countP_eq_length_filter]

theorem mem_pdUnique_of_countP (protein : α → π) (df : List α) (p : π)
    (h : 0 < df.countP (fun r => decide (protein r = p))) :
    p ∈ pdUnique (df.map protein) := by
  rcases List.countP_pos.mp h with ⟨r, hr, hq⟩
  exact mem_pdUnique.mpr (List.mem_map.mpr ⟨r, hr, of_decide_eq_true hq⟩)

/-- C3.  Under Policy B (`new_proteins=False`), every protein identifier
with at least 2 samples has at least one sample in train and at least one
in test, and its train sample count equals `round(0.7 · k)` of its total
count `k` — i.e. 70% up to rounding (`|10·train − 7·k| ≤ 5`). -/
theorem policyB_seen_proteins_spec (σ : List π → List π) (τ : π → List α → List α)
    (protein : α → π) (df : List α) (hτ : ∀ p g, (τ p g).Perm g) (p : π)
    (h2 : 2 ≤ df.countP (fun r => decide (protein r = p))) :
    1 ≤ (train_test_split_proteins σ τ protein df false).1.countP
        (fun r => decide (protein r = p)) ∧
    1 ≤ (train_test_split_proteins σ τ protein df false).2.countP
        (fun r => decide (protein r = p)) ∧
    (train_test_split_proteins σ τ protein df false).1.countP
        (fun r => decide (protein r = p))
      = sampleSize (df.countP (fun r => decide (protein r = p))) ∧
    |10 * ((train_test_split_proteins σ τ protein df false).1.countP
        (fun r => decide (protein r = p)) : ℤ)
      - 7 * (df.countP (fun r => decide (protein r = p)) : ℤ)| ≤ 5 := by
  have hp := mem_pdUnique_of_countP protein df p (by omega)
  rw [countP_policyB_train σ τ protein df hτ p hp,
    countP_policyB_test σ τ protein df hτ p hp]
  unfold sampleSize
  refine ⟨by omega, by omega, rfl, ?_⟩
  rw [abs_le]
  constructor <;> [skip; skip] <;> push_cast <;> omega

/-- Witness for C3: protein `1` (rows `11, 12, 13` under the decade
grouping `n / 10`) has 3 samples; 2 land in train and 1 in test. -/
theorem policyB_seen_proteins_spec_witness :
    1 ≤ (train_test_split_proteins id (fun _ g => g) (fun n => n / 10)
        [11, 12, 13, 21] false).1.countP (fun r => decide (r / 10 = 1)) ∧
    1 ≤ (train_test_split_proteins id (fun _ g => g) (fun n => n / 10)
        [11, 12, 13, 21] false).2.countP (fun r => decide (r / 10 = 1)) ∧
    (train_test_split_proteins id (fun _ g => g) (fun n => n / 10)
        [11, 12, 13, 21] false).1.countP (fun r => decide (r / 10 = 1))
      = sampleSize ([11, 12, 13, 21].countP (fun r => decide (r / 10 = 1))) ∧
    |10 * ((train_test_split_proteins id (fun _ g => g) (fun n => n / 10)
        [11, 12, 13, 21] false).1.countP (fun r => decide (r / 10 = 1)) : ℤ)
      - 7 * ([11, 12, 13, 21].countP (fun r => decide (r / 10 = 1)) : ℤ)| ≤ 5 :=
  policyB_seen_proteins_spec id (fun _ g => g) (fun n => n / 10)
    [11, 12, 13, 21] (fun _ g => List.Perm.refl g) 1 (by decide)

/-- C10.  Under Policy B, a protein identifier with exactly one sample has
that sample placed in train (`round(0.7 · 1) = 1`) and no sample in
test. -/
theorem policyB_singleton_protein_spec (σ : List π → List π)
    (τ : π → List α → List α) (protein : α → π) (df : List α)
    (hτ : ∀ p g, (τ p g).Perm g) (p : π)
    (h1 : df.countP (fun r => decide (protein r = p)) = 1) :
    (train_test_split_proteins σ τ protein df false).1.countP
        (fun r => decide (protein r = p)) = 1 ∧
    (train_test_split_proteins σ τ protein df false).2.countP
        (fun r => decide (protein r = p)) = 0 := by
  have hp := mem_pdUnique_of_countP protein df p (by omega)
  rw [countP_policyB_train σ τ protein df hτ p hp,
    countP_policyB_test σ τ protein df hτ p hp, h1]
  exact ⟨rfl, rfl⟩

/-- Witness for C10: protein `2` (row `21` under the decade grouping) has
exactly one sample, which lands in train. -/
theorem policyB_singleton_protein_spec_witness :
    (train_test_split_proteins id (fun _ g => g) (fun n => n / 10)
        [11, 12, 13, 21] false).1.countP (fun r => decide (r / 10 = 2)) = 1 ∧
    (train_test_split_proteins id (fun _ g => g) (fun n => n / 10)
        [11, 12, 13, 21] false).2.countP (fun r => decide (r / 10 = 2)) = 0 :=
  policyB_singleton_protein_spec id (fun _ g => g) (fun n => n / 10)
    [11, 12, 13, 21] (fun _ g => List.Perm.refl g) 2 (by decide)

/-- C4.  Under both policies, the split neither drops nor duplicates a
sample: the concatenation of the returned train and test partitions is a
permutation of the input dataset. -/
theorem split_partition_spec [DecidableEq α] (σ : List π → List π)
    (τ : π → List α → List α) (protein : α → π) (df : List α)
    (hσ : ∀ l : List π, (σ l).Perm l) (hτ : ∀ p g, (τ p g).Perm g) :
    ((train_test_split_proteins σ τ protein df true).1 ++
      (train_test_split_proteins σ τ protein df true).2).Perm df ∧
    ((train_test_split_proteins σ τ protein df false).1 ++
      (train_test_split_proteins σ τ protein df false).2).Perm df := by
  constructor
  · set ps := pdUnique (df.map protein) with hps
    have hperm : (σ ps).Perm ps := hσ ps
    have hnd_s : (σ ps).Nodup := hperm.nodup_iff.mpr (nodup_pdUnique _)
    set k := nTestOf ps.length with hk
    have hchar : train_test_split_proteins σ τ protein df true =
        (df.filter (fun r => decide (protein r ∈ (σ ps).drop k)),
         df.filter (fun r => decide (protein r ∈ (σ ps).take k))) := by
      simp only [train_test_split_proteins, if_true, train_test_split_unique,
        ← hps, ← hk]
    rw [hchar]
    have hpoint : ∀ r ∈ df, (fun r => decide (protein r ∈ (σ ps).take k)) r =
        (fun r => !(decide (protein r ∈ (σ ps).drop k))) r := by
      intro r hr
      have hmem : protein r ∈ σ ps :=
        hperm.mem_iff.mpr (mem_pdUnique.mpr (List.mem_map_of_mem protein hr))
      have hmem2 : protein r ∈ (σ ps).take k ++ (σ ps).drop k := by
        rw [List.take_append_drop]; exact hmem
      rcases List.mem_append.mp hmem2 with h | h
      · have hnd : protein r ∉ (σ ps).drop k := fun hd =>
          List.disjoint_take_drop hnd_s (le_refl k) h hd
        simp [h, hnd]
      · have hnt : protein r ∉ (σ ps).take k := fun ht =>
          List.disjoint_take_drop hnd_s (le_refl k) ht h
        simp [h, hnt]
    rw [List.filter_congr hpoint]
    exact List.filter_append_perm _ df
  · rw [policyB_eq]
    apply List.perm_iff_count.mpr
    intro a
    rw [List.count_append, List.count_flatten, List.count_flatten,
      List.map_map, List.map_map, sum_map_add]
    have hmapeq : (pdUnique (df.map protein)).map (fun p' =>
          (List.count a ∘ fun p =>
            (τ p (df.filter (fun r => decide (protein r = p)))).take
              (sampleSize (df.filter (fun r => decide (protein r = p))).length)) p'
          + (List.count a ∘ fun p =>
            (τ p (df.filter (fun r => decide (protein r = p)))).drop
              (sampleSize (df.filter (fun r => decide (protein r = p))).length)) p')
        = (pdUnique (df.map protein)).map (fun p' =>
            List.count a (df.filter (fun r => decide (protein r = p')))) := by
      apply List.map_congr_left
      intro p' _
      simp only [Function.comp_apply]
      rw [← List.count_append, List.take_append_drop, (hτ p' _).count_eq]
    rw [hmapeq]
    by_cases hadf : a ∈ df
    · have hpa : protein a ∈ pdUnique (df.map protein) :=
        mem_pdUnique.mpr (List.mem_map_of_mem protein hadf)
      rw [sum_map_eq_single _ _ (protein a) (nodup_pdUnique _) hpa ?zeros]
      case zeros =>
        intro q hq hne
        apply List.count_eq_zero_of_not_mem
        intro hmem
        exact hne (of_decide_eq_true (List.mem_filter.mp hmem).2).symm
      · exact List.count_filter (by simp)
    · rw [List.count_eq_zero_of_not_mem hadf]
      apply List.sum_eq_zero
      intro x hx
      rcases List.mem_map.mp hx with ⟨q, hq, rfl⟩
      apply List.count_eq_zero_of_not_mem
      intro hmem
      exact hadf (List.mem_filter.mp hmem).1

/-- Witness for C4: the four-row dataset `[11, 12, 13, 21]` under the
decade grouping, for both policies. -/
theorem split_partition_spec_witness :
    ((train_test_split_proteins id (fun _ g => g) (fun n => n / 10)
        [11, 12, 13, 21] true).1 ++
      (train_test_split_proteins id (fun _ g => g) (fun n => n / 10)
        [11, 12, 13, 21] true).2).Perm [11, 12, 13, 21] ∧
    ((train_test_split_proteins id (fun _ g => g) (fun n => n / 10)
        [11, 12, 13, 21] false).1 ++
      (train_test_split_proteins id (fun _ g => g) (fun n => n / 10)
        [11, 12, 13, 21] false).2).Perm [11, 12, 13, 21] :=
  split_partition_spec id (fun _ g => g) (fun n => n / 10) [11, 12, 13, 21]
    (fun l => List.Perm.refl l) (fun _ g => List.Perm.refl g)

end Split

/-! ## Evaluation metrics (`evaluate_model_with_metrics`)

The evaluator collects the per-sample true affinities and predictions and
calls `mean_squared_error`, `r2_score`, `concordance_index`, `pearsonr`
and `precision_recall_curve`/`auc`.  Those library calls are embedded
below from the exact-arithmetic semantics of those libraries; a call that raises
(the lifelines `ZeroDivisionError`, the scipy length check, the
two-point requirement of `auc`) or returns NaN (constant input to
`pearsonr`, fewer than two samples in `r2_score`) is modelled as
`none`. -/

/-- Embedding of `sklearn.metrics.mean_squared_error`. -/
def mean_squared_error (y_true y_pred : List ℚ) : ℚ :=
  (((y_true.zip y_pred).map (fun ab => (ab.1 - ab.2) ^ 2)).sum) / (y_true.length : ℚ)

/-- Arithmetic mean of a list. -/
def listMean (l : List ℚ) : ℚ := l.sum / (l.length : ℚ)

/-- Sum of squared residuals between paired entries. -/
def ssRes (y_true y_pred : List ℚ) : ℚ :=
  ((y_true.zip y_pred).map (fun ab => (ab.1 - ab.2) ^ 2)).sum

/-- Total sum of squares around the mean of the true values. -/
def ssTot (y_true : List ℚ) : ℚ :=
  (y_true.map (fun y => (y - listMean y_true) ^ 2)).sum

/-- Embedding of `sklearn.metrics.r2_score`: `1 - ssRes/ssTot` when the
denominator is nonzero; the scikit-learn degenerate conventions otherwise
(`1.0` when numerator and denominator both vanish, else `0.0`), and NaN
(modelled `none`) for fewer than two samples. -/
def r2_score (y_true y_pred : List ℚ) : Option ℚ :=
  if y_true.length < 2 then none
  else if ssTot y_true ≠ 0 then some (1 - ssRes y_true y_pred / ssTot y_true)
  else if ssRes y_true y_pred = 0 then some 1 else some 0

/-- All ordered pairs (earlier element, later element) of a list. -/
def allPairs {β : Type} : List β → List (β × β)
  | [] => []
  | x :: xs => xs.map (fun y => (x, y)) ++ allPairs xs

/-- Per-pair score of the lifelines concordance computation on the pairs
(true value, prediction): a pair with tied true values is inadmissible
and contributes 0; tied predictions contribute 1/2; agreeing orders 1;
disagreeing orders 0. -/
def pairScore (a b : ℚ × ℚ) : ℚ :=
  if a.1 = b.1 then 0
  else if a.2 = b.2 then 1 / 2
  else if (a.1 < b.1) ↔ (a.2 < b.2) then 1 else 0

/-- Number of admissible pairs: pairs of samples with differing true
values. -/
def admissiblePairs (y_true y_pred : List ℚ) : Nat :=
  (allPairs (y_true.zip y_pred)).countP (fun ab => decide (ab.1.1 ≠ ab.2.1))

/-- Embedding of `lifelines.utils.concordance_index(y_true, y_pred)`
with every event observed: the summed pair scores over admissible pairs
divided by the number of admissible pairs; `none` models the
`ZeroDivisionError` raised when no admissible pair exists. -/
def concordance_index (y_true y_pred : List ℚ) : Option ℚ :=
  if admissiblePairs y_true y_pred = 0 then none
  else some (((allPairs (y_true.zip y_pred)).map
    (fun ab => pairScore ab.1 ab.2)).sum / (admissiblePairs y_true y_pred : ℚ))

/-- Centered cross-product sum of two paired lists. -/
def crossSum (x y : List ℚ) : ℚ :=
  ((x.zip y).map (fun ab => (ab.1 - listMean x) * (ab.2 - listMean y))).sum

/-- Embedding of `scipy.stats.pearsonr`: `none` models both the exception
raised for fewer than two samples and the NaN returned for a constant
input; otherwise the correlation `Σ dx·dy / (√(Σ dx²) · √(Σ dy²))` (a
real number, as the square roots are generally irrational). -/
noncomputable def pearsonr (y_true y_pred : List ℚ) : Option ℝ :=
  if y_true.length < 2 ∨ crossSum y_true y_true = 0 ∨ crossSum y_pred y_pred = 0
  then none
  else some ((crossSum y_true y_pred : ℝ) /
    (Real.sqrt ((crossSum y_true y_true : ℚ) : ℝ) *
      Real.sqrt ((crossSum y_pred y_pred : ℚ) : ℝ)))

/-- The binarization threshold `12.1` of the evaluator. -/
def kibaThreshold : ℚ := 121 / 10

/-- True positives at threshold `t` among pairs (label, score): labelled
positive and scored at least `t`. -/
def tpAt (pr : List (Bool × ℚ)) (t : ℚ) : Nat :=
  pr.countP (fun bp => bp.1 && decide (t ≤ bp.2))

/-- Number of samples scored at least `t`. -/
def predAt (pr : List (Bool × ℚ)) (t : ℚ) : Nat :=
  pr.countP (fun bp => decide (t ≤ bp.2))

/-- Precision at threshold `t`. -/
def precAt (pr : List (Bool × ℚ)) (t : ℚ) : ℚ :=
  (tpAt pr t : ℚ) / (predAt pr t : ℚ)

/-- Recall at threshold `t`; scikit-learn sets recall to 1 everywhere
when no positive sample exists. -/
def recAt (P : Nat) (pr : List (Bool × ℚ)) (t : ℚ) : ℚ :=
  if P = 0 then 1 else (tpAt pr t : ℚ) / (P : ℚ)

/-- Thresholds of `precision_recall_curve` up to and including the first
one attaining full recall (the scikit-learn slice at
`tps.searchsorted(tps[-1])`). -/
def keepUntilFull (P : Nat) (f : ℚ → Nat) : List ℚ → List ℚ
  | [] => []
  | t :: ts => if f t = P then [t] else t :: keepUntilFull P f ts

/-- The labelled samples passed to `precision_recall_curve`: the
binarized truths `(y_true > 12.1)` paired with the scores. -/
def prPairs (y_true y_pred : List ℚ) : List (Bool × ℚ) :=
  (y_true.map (fun y => decide (kibaThreshold < y))).zip y_pred

/-- Number of positively labelled samples. -/
def posCount (y_true y_pred : List ℚ) : Nat :=
  (prPairs y_true y_pred).countP (fun bp => bp.1)

/-- The candidate thresholds of `precision_recall_curve`: the distinct
prediction scores in decreasing order. -/
def prThresholds (y_pred : List ℚ) : List ℚ :=
  List.insertionSort (fun a b => a ≥ b) (pdUnique y_pred)

/-- The (recall, precision) points returned by
`precision_recall_curve((y_true > 12.1).astype(int), y_pred)`, in
scikit-learn order: decreasing recall, with the final appended point
(recall 0, precision 1). -/
def prPoints (y_true y_pred : List ℚ) : List (ℚ × ℚ) :=
  ((keepUntilFull (posCount y_true y_pred) (tpAt (prPairs y_true y_pred))
      (prThresholds y_pred)).reverse.map
    (fun t => (recAt (posCount y_true y_pred) (prPairs y_true y_pred) t,
      precAt (prPairs y_true y_pred) t)))
    ++ [(0, 1)]

/-- Trapezoidal area under a polyline given with decreasing x,
embedding `sklearn.metrics.auc` (which negates `np.trapz` when x is
decreasing). -/
def trapezoidDesc : List (ℚ × ℚ) → ℚ
  | a :: b :: rest => (a.1 - b.1) * (a.2 + b.2) / 2 + trapezoidDesc (b :: rest)
  | _ => 0

/-- The AUPR computed by the evaluator:
`auc(recall, precision)` over the precision-recall points; `none` models
the exception `auc` raises on fewer than two points (empty input). -/
def auprOf (y_true y_pred : List ℚ) : Option ℚ :=
  if y_pred = [] then none else some (trapezoidDesc (prPoints y_true y_pred))

/-- Embedding of `evaluate_model_with_metrics` on the collected
per-sample true affinities and predictions: the returned quintuple
(MSE, R², CI, Pearson, AUPR). -/
noncomputable def evaluate_model_with_metrics (y_true y_pred : List ℚ) :
    ℚ × Option ℚ × Option ℚ × Option ℝ × Option ℚ :=
  (mean_squared_error y_true y_pred, r2_score y_true y_pred,
   concordance_index y_true y_pred, pearsonr y_true y_pred,
   auprOf y_true y_pred)

/-- C7 (code behaviour at the failing input).  On the degenerate
held-out set `y_true = [1, 2, 3]` (all below the 12.1 threshold, so the
positive class is empty) with predictions `[1, 2, 3]`, the evaluator
neither fails nor returns a sentinel: it silently returns the
nonsensical AUPR value 1/2.  Likewise, on zero-variance truths
`[5, 5, 5]` with predictions `[1, 2, 3]`, `r2_score` silently returns
the arbitrary fallback 0 rather than a sentinel. -/
theorem degenerate_metrics_silent :
    (evaluate_model_with_metrics [1, 2, 3] [1, 2, 3]).2.2.2.2 = some (1 / 2) ∧
    (evaluate_model_with_metrics [5, 5, 5] [1, 2, 3]).2.1 = some 0 := by
  constructor
  · show auprOf [1, 2, 3] [1, 2, 3] = some (1 / 2)
    rw [auprOf, if_neg (by simp)]
    norm_num [prPoints, prPairs, posCount, prThresholds, keepUntilFull,
      tpAt, predAt, precAt, recAt, kibaThreshold, pdUnique, trapezoidDesc,
      List.insertionSort, List.orderedInsert, List.countP, List.countP.go]
  · show r2_score [5, 5, 5] [1, 2, 3] = some 0
    norm_num [r2_score, ssRes, ssTot, listMean]

theorem zip_self_eq_map {β : Type} : ∀ (l : List β), l.zip l = l.map (fun x => (x, x))
  | [] => rfl
  | a :: t => by rw [List.zip_cons_cons, zip_self_eq_map t]; rfl

theorem zip_self_diag {β : Type} {l : List β} {ab : β × β} (h : ab ∈ l.zip l) :
    ab.1 = ab.2 := by
  rw [zip_self_eq_map] at h
  rcases List.mem_map.mp h with ⟨x, -, rfl⟩
  rfl

theorem mem_zip_self {β : Type} {l : List β} {x : β} (h : x ∈ l) :
    (x, x) ∈ l.zip l := by
  rw [zip_self_eq_map]
  exact List.mem_map.mpr ⟨x, h, rfl⟩

theorem map_zip_self {β γ : Type} (f : β → γ) :
    ∀ (l : List β), (l.map f).zip l = l.map (fun x => (f x, x))
  | [] => rfl
  | a :: t => by rw [List.map_cons, List.zip_cons_cons, map_zip_self f t]; rfl

theorem mem_allPairs {β : Type} : ∀ {l : List β} {ab : β × β},
    ab ∈ allPairs l → ab.1 ∈ l ∧ ab.2 ∈ l := by
  intro l
  induction l with
  | nil => intro ab h; cases h
  | cons x xs ih =>
    intro ab h
    rw [allPairs] at h
    rcases List.mem_append.mp h with h | h
    · rcases List.mem_map.mp h with ⟨y, hy, rfl⟩
      exact ⟨List.mem_cons_self _ _, List.mem_cons_of_mem _ hy⟩
    · rcases ih h with ⟨h1, h2⟩
      exact ⟨List.mem_cons_of_mem _ h1, List.mem_cons_of_mem _ h2⟩

theorem pair_mem_allPairs {β : Type} : ∀ {l : List β} {x y : β}, x ∈ l → y ∈ l →
    x ≠ y → (x, y) ∈ allPairs l ∨ (y, x) ∈ allPairs l := by
  intro l
  induction l with
  | nil => intro x y hx _ _; cases hx
  | cons a t ih =>
    intro x y hx hy hne
    rcases List.mem_cons.mp hx with rfl | hx'
    · rcases List.mem_cons.mp hy with rfl | hy'
      · exact absurd rfl hne
      · exact Or.inl (by
          rw [allPairs]
          exact List.mem_append_left _ (List.mem_map.mpr ⟨y, hy', rfl⟩))
    · rcases List.mem_cons.mp hy with rfl | hy'
      · exact Or.inr (by
          rw [allPairs]
          exact List.mem_append_left _ (List.mem_map.mpr ⟨x, hx', rfl⟩))
      · rcases ih hx' hy' hne with h | h
        · exact Or.inl (by rw [allPairs]; exact List.mem_append_right _ h)
        · exact Or.inr (by rw [allPairs]; exact List.mem_append_right _ h)

theorem countP_cast {β : Type} (p : β → Bool) : ∀ (l : List β),
    ((l.countP p : ℕ) : ℚ) = (l.map (fun x => if p x = true then (1 : ℚ) else 0)).sum := by
  intro l
  induction l with
  | nil => simp
  | cons a t ih =>
    rw [List.countP_cons, List.map_cons, List.sum_cons, ← ih]
    by_cases hp : p a = true <;> simp [hp] <;> push_cast <;> ring

theorem sum_zero_of_nonneg : ∀ {l : List ℚ}, (∀ x ∈ l, 0 ≤ x) → l.sum = 0 →
    ∀ x ∈ l, x = 0 := by
  intro l
  induction l with
  | nil => intro _ _ x hx; cases hx
  | cons a t ih =>
    intro h0 hs x hx
    have hts : 0 ≤ t.sum :=
      List.sum_nonneg (fun y hy => h0 y (List.mem_cons_of_mem _ hy))
    have ha : 0 ≤ a := h0 a (List.mem_cons_self _ _)
    rw [List.sum_cons] at hs
    rcases List.mem_cons.mp hx with rfl | hx'
    · linarith
    · exact ih (fun y hy => h0 y (List.mem_cons_of_mem _ hy)) (by linarith) x hx'

theorem two_le_length_of_two_mem {β : Type} {l : List β} {a b : β} (ha : a ∈ l)
    (hb : b ∈ l) (hne : a ≠ b) : 2 ≤ l.length := by
  rcases l with _ | ⟨x, _ | ⟨y, t⟩⟩
  · cases ha
  · have h1 : a = x := by simpa using ha
    have h2 : b = x := by simpa using hb
    exact absurd (h1.trans h2.symm) hne
  · simp only [List.length_cons]
    omega

theorem exists_list_min : ∀ (l : List ℚ), l ≠ [] → ∃ m ∈ l, ∀ x ∈ l, m ≤ x := by
  intro l
  induction l with
  | nil => intro h; exact absurd rfl h
  | cons a t ih =>
    intro _
    rcases eq_or_ne t [] with rfl | hne
    · exact ⟨a, List.mem_cons_self _ _, by intro x hx; simp at hx; simp [hx]⟩
    · rcases ih hne with ⟨m, hm, hmin⟩
      rcases le_total a m with hle | hle
      · refine ⟨a, List.mem_cons_self _ _, ?_⟩
        intro x hx
        rcases List.mem_cons.mp hx with rfl | hx'
        · exact le_refl x
        · exact le_trans hle (hmin x hx')
      · refine ⟨m, List.mem_cons_of_mem _ hm, ?_⟩
        intro x hx
        rcases List.mem_cons.mp hx with rfl | hx'
        · exact hle
        · exact hmin x hx'

theorem keepUntilFull_subset {P : Nat} {f : ℚ → Nat} : ∀ {ts : List ℚ} {t : ℚ},
    t ∈ keepUntilFull P f ts → t ∈ ts := by
  intro ts
  induction ts with
  | nil => intro t h; cases h
  | cons s rest ih =>
    intro t h
    rw [keepUntilFull] at h
    by_cases hs : f s = P
    · rw [if_pos hs] at h
      have : t = s := by simpa using h
      exact this ▸ List.mem_cons_self _ _
    · rw [if_neg hs] at h
      rcases List.mem_cons.mp h with rfl | h'
      · exact List.mem_cons_self _ _
      · exact List.mem_cons_of_mem _ (ih h')

theorem keepUntilFull_no_full_above {P : Nat} {f : ℚ → Nat} : ∀ {ts : List ℚ},
    ts.Sorted (fun a b => a ≥ b) → ∀ {t : ℚ}, t ∈ keepUntilFull P f ts →
    ∀ {u : ℚ}, u ∈ ts → t < u → f u ≠ P := by
  intro ts
  induction ts with
  | nil => intro _ t h; cases h
  | cons s rest ih =>
    intro hsort t ht u hu htu
    rcases List.sorted_cons.mp hsort with ⟨hall, hrest⟩
    rw [keepUntilFull] at ht
    by_cases hs : f s = P
    · rw [if_pos hs] at ht
      have hts : t = s := by simpa using ht
      subst hts
      rcases List.mem_cons.mp hu with rfl | hu'
      · exact absurd htu (lt_irrefl _)
      · exact absurd htu (not_lt.mpr (hall u hu'))
    · rw [if_neg hs] at ht
      rcases List.mem_cons.mp ht with rfl | ht'
      · rcases List.mem_cons.mp hu with rfl | hu'
        · exact absurd htu (lt_irrefl _)
        · exact absurd htu (not_lt.mpr (hall u hu'))
      · rcases List.mem_cons.mp hu with rfl | hu'
        · exact fun h => hs h
        · exact ih hrest ht' hu' htu

theorem keepUntilFull_getLast {P : Nat} {f : ℚ → Nat} : ∀ {ts : List ℚ},
    (∃ t ∈ ts, f t = P) →
    ∃ tl, (keepUntilFull P f ts).getLast? = some tl ∧ f tl = P := by
  intro ts
  induction ts with
  | nil => rintro ⟨t, ht, -⟩; cases ht
  | cons s rest ih =>
    rintro ⟨t, ht, hft⟩
    rw [keepUntilFull]
    by_cases hs : f s = P
    · rw [if_pos hs]
      exact ⟨s, rfl, hs⟩
    · rw [if_neg hs]
      have hex : ∃ u ∈ rest, f u = P := by
        rcases List.mem_cons.mp ht with rfl | ht'
        · exact absurd hft hs
        · exact ⟨t, ht', hft⟩
      rcases ih hex with ⟨tl, htl, hftl⟩
      refine ⟨tl, ?_, hftl⟩
      have hne : keepUntilFull P f rest ≠ [] := by
        intro h
        rw [h] at htl
        cases htl
      rcases List.exists_cons_of_ne_nil hne with ⟨b, L, hbl⟩
      rw [hbl] at htl ⊢
      rw [List.getLast?_cons_cons]
      exact htl

theorem getLastD_cons_append_singleton {β : Type} (d e : β) :
    ∀ (m : List β) (x : β), ((x :: (m ++ [e])).getLast?).getD d = e := by
  intro m
  induction m with
  | nil => intro x; rfl
  | cons y ys ih =>
    intro x
    show ((x :: y :: (ys ++ [e])).getLast?).getD d = e
    rw [List.getLast?_cons_cons]
    exact ih y

theorem trapezoid_of_ones : ∀ (rest : List (ℚ × ℚ)) (x : ℚ × ℚ),
    (∀ q ∈ x :: rest, q.2 = 1) →
    trapezoidDesc (x :: rest) = x.1 - (((x :: rest).getLast?).getD (0, 0)).1 := by
  intro rest
  induction rest with
  | nil =>
    intro x _
    simp [trapezoidDesc]
  | cons b r ih =>
    intro x h
    have hx : x.2 = 1 := h x (List.mem_cons_self _ _)
    have hb : b.2 = 1 := h b (List.mem_cons_of_mem _ (List.mem_cons_self _ _))
    have hrest : ∀ q ∈ b :: r, q.2 = 1 := fun q hq => h q (List.mem_cons_of_mem _ hq)
    rw [show trapezoidDesc (x :: b :: r) =
        (x.1 - b.1) * (x.2 + b.2) / 2 + trapezoidDesc (b :: r) from rfl,
      ih b hrest, hx, hb, List.getLast?_cons_cons]
    ring

theorem mse_self (yt : List ℚ) : mean_squared_error yt yt = 0 := by
  unfold mean_squared_error
  rw [List.sum_eq_zero, zero_div]
  intro x hx
  rcases List.mem_map.mp hx with ⟨ab, hab, rfl⟩
  rw [zip_self_diag hab]
  ring

theorem ssRes_self (yt : List ℚ) : ssRes yt yt = 0 := by
  unfold ssRes
  rw [List.sum_eq_zero]
  intro x hx
  rcases List.mem_map.mp hx with ⟨ab, hab, rfl⟩
  rw [zip_self_diag hab]
  ring

theorem r2_self {yt : List ℚ} (h2 : 2 ≤ yt.length) : r2_score yt yt = some 1 := by
  unfold r2_score
  rw [if_neg (by omega)]
  by_cases ht : ssTot yt ≠ 0
  · rw [if_pos ht, ssRes_self, zero_div, sub_zero]
  · rw [if_neg ht, if_pos (ssRes_self yt)]

theorem crossSum_self_eq (yt : List ℚ) :
    crossSum yt yt = (yt.map (fun y => (y - listMean yt) ^ 2)).sum := by
  unfold crossSum
  rw [zip_self_eq_map, List.map_map]
  refine congrArg List.sum (List.map_congr_left ?_)
  intro x _
  simp only [Function.comp_apply]
  ring

theorem crossSum_self_nonneg (yt : List ℚ) : 0 ≤ crossSum yt yt := by
  rw [crossSum_self_eq]
  apply List.sum_nonneg
  intro x hx
  rcases List.mem_map.mp hx with ⟨y, -, rfl⟩
  positivity

theorem crossSum_self_ne_zero {yt : List ℚ} (hnc : ∃ a ∈ yt, ∃ b ∈ yt, a ≠ b) :
    crossSum yt yt ≠ 0 := by
  rcases hnc with ⟨a, ha, b, hb, hne⟩
  rw [crossSum_self_eq]
  intro h0
  have hz : ∀ x ∈ yt.map (fun y => (y - listMean yt) ^ 2), x = 0 :=
    sum_zero_of_nonneg
      (by intro x hx; rcases List.mem_map.mp hx with ⟨y, -, rfl⟩; positivity) h0
  have hza : a - listMean yt = 0 :=
    sq_eq_zero_iff.mp (hz _ (List.mem_map.mpr ⟨a, ha, rfl⟩))
  have hzb : b - listMean yt = 0 :=
    sq_eq_zero_iff.mp (hz _ (List.mem_map.mpr ⟨b, hb, rfl⟩))
  exact hne (by linarith)

theorem pearson_self {yt : List ℚ} (hnc : ∃ a ∈ yt, ∃ b ∈ yt, a ≠ b) :
    pearsonr yt yt = some 1 := by
  have h2 : 2 ≤ yt.length := by
    rcases hnc with ⟨a, ha, b, hb, hne⟩
    exact two_le_length_of_two_mem ha hb hne
  have hv : crossSum yt yt ≠ 0 := crossSum_self_ne_zero hnc
  unfold pearsonr
  rw [if_neg (by push_neg; exact ⟨by omega, hv, hv⟩)]
  congr 1
  have hv0 : (0 : ℝ) ≤ ((crossSum yt yt : ℚ) : ℝ) := by
    exact_mod_cast crossSum_self_nonneg yt
  rw [Real.mul_self_sqrt hv0]
  exact div_self (by exact_mod_cast hv)

theorem ci_self {yt : List ℚ} (hnc : ∃ a ∈ yt, ∃ b ∈ yt, a ≠ b) :
    concordance_index yt yt = some 1 := by
  rcases hnc with ⟨a, ha, b, hb, hne⟩
  have hmem_ab : ((a, a), (b, b)) ∈ allPairs (yt.zip yt) ∨
      ((b, b), (a, a)) ∈ allPairs (yt.zip yt) :=
    pair_mem_allPairs (mem_zip_self ha) (mem_zip_self hb)
      (fun h => hne (congrArg Prod.fst h))
  have hden_pos : admissiblePairs yt yt ≠ 0 := by
    unfold admissiblePairs
    have hex : ∃ ab ∈ allPairs (yt.zip yt),
        (fun ab : (ℚ × ℚ) × ℚ × ℚ => decide (ab.1.1 ≠ ab.2.1)) ab = true := by
      rcases hmem_ab with h | h
      · exact ⟨_, h, by simpa using hne⟩
      · exact ⟨_, h, by simpa using Ne.symm hne⟩
    have := List.countP_pos.mpr hex
    omega
  unfold concordance_index
  rw [if_neg hden_pos]
  congr 1
  have hsum : ((allPairs (yt.zip yt)).map (fun ab => pairScore ab.1 ab.2)).sum =
      ((admissiblePairs yt yt : ℕ) : ℚ) := by
    unfold admissiblePairs
    rw [countP_cast]
    refine congrArg List.sum (List.map_congr_left ?_)
    intro ab hab
    have h1 := mem_allPairs hab
    have d1 : ab.1.1 = ab.1.2 := zip_self_diag h1.1
    have d2 : ab.2.1 = ab.2.2 := zip_self_diag h1.2
    by_cases heq : ab.1.1 = ab.2.1
    · simp [pairScore, heq]
    · rw [pairScore, if_neg heq, if_neg (by rw [← d1, ← d2]; exact heq),
        if_pos (by rw [← d1, ← d2])]
      simp [heq]
  rw [hsum]
  exact div_self (by exact_mod_cast hden_pos)

theorem aupr_self {yt : List ℚ} (hpos : ∃ a ∈ yt, kibaThreshold < a)
    (hneg : ∃ b ∈ yt, ¬kibaThreshold < b) : auprOf yt yt = some 1 := by
  rcases hpos with ⟨a0, ha0, ha0t⟩
  have hytne : yt ≠ [] := List.ne_nil_of_mem ha0
  have hpr_eq : prPairs yt yt = yt.map (fun v => (decide (kibaThreshold < v), v)) :=
    map_zip_self _ yt
  have hP_pos : posCount yt yt ≠ 0 := by
    unfold posCount
    have hex : ∃ bp ∈ prPairs yt yt,
        (fun bp : Bool × ℚ => bp.1) bp = true := by
      refine ⟨(decide (kibaThreshold < a0), a0), ?_, by simpa using ha0t⟩
      rw [hpr_eq]
      exact List.mem_map.mpr ⟨a0, ha0, rfl⟩
    have := List.countP_pos.mpr hex
    omega
  have hposne : yt.filter (fun y => decide (kibaThreshold < y)) ≠ [] :=
    List.ne_nil_of_mem (List.mem_filter.mpr ⟨ha0, by simpa using ha0t⟩)
  rcases exists_list_min _ hposne with ⟨mp, hmp_mem, hmp_min⟩
  have hmp_yt : mp ∈ yt := (List.mem_filter.mp hmp_mem).1
  have hmp_th : kibaThreshold < mp :=
    of_decide_eq_true (List.mem_filter.mp hmp_mem).2
  have htp_mp : tpAt (prPairs yt yt) mp = posCount yt yt := by
    unfold tpAt posCount
    apply List.countP_congr
    intro bp hbp
    rw [hpr_eq] at hbp
    rcases List.mem_map.mp hbp with ⟨v, hv, rfl⟩
    by_cases hb : kibaThreshold < v
    · have hvpos : v ∈ yt.filter (fun y => decide (kibaThreshold < y)) :=
        List.mem_filter.mpr ⟨hv, by simpa using hb⟩
      simp [hb, hmp_min v hvpos]
    · simp [hb]
  have hmp_ts : mp ∈ prThresholds yt := by
    unfold prThresholds
    rw [List.mem_insertionSort]
    exact mem_pdUnique.mpr hmp_yt
  have hsort : (prThresholds yt).Sorted (fun a b => a ≥ b) :=
    List.sorted_insertionSort _ _
  have hprec : ∀ t ∈ keepUntilFull (posCount yt yt) (tpAt (prPairs yt yt))
      (prThresholds yt), precAt (prPairs yt yt) t = 1 := by
    intro t ht
    have ht_ts : t ∈ prThresholds yt := keepUntilFull_subset ht
    have ht_yt : t ∈ yt := by
      unfold prThresholds at ht_ts
      rw [List.mem_insertionSort] at ht_ts
      exact mem_pdUnique.mp ht_ts
    have hall : ∀ bp ∈ prPairs yt yt, decide (t ≤ bp.2) = true → bp.1 = true := by
      intro bp hbp hle
      by_contra hbc
      rw [hpr_eq] at hbp
      rcases List.mem_map.mp hbp with ⟨v, hv, rfl⟩
      have hvneg : ¬kibaThreshold < v := fun h => hbc (by simpa using h)
      have htv : t ≤ v := of_decide_eq_true hle
      have htmp : t < mp := lt_of_le_of_lt (le_trans htv (not_lt.mp hvneg)) hmp_th
      exact keepUntilFull_no_full_above hsort ht hmp_ts htmp htp_mp
    have heq : tpAt (prPairs yt yt) t = predAt (prPairs yt yt) t := by
      unfold tpAt predAt
      apply List.countP_congr
      intro bp hbp
      cases hd : decide (t ≤ bp.2) with
      | false => simp [hd]
      | true => simp [hd, hall bp hbp hd]
    have hpred_pos : predAt (prPairs yt yt) t ≠ 0 := by
      unfold predAt
      have hex : ∃ bp ∈ prPairs yt yt,
          (fun bp : Bool × ℚ => decide (t ≤ bp.2)) bp = true := by
        refine ⟨(decide (kibaThreshold < t), t), ?_, by simp⟩
        rw [hpr_eq]
        exact List.mem_map.mpr ⟨t, ht_yt, rfl⟩
      have := List.countP_pos.mpr hex
      omega
    unfold precAt
    rw [heq]
    exact div_self (by exact_mod_cast hpred_pos)
  rcases keepUntilFull_getLast ⟨mp, hmp_ts, htp_mp⟩ with ⟨tl, htl, hftl⟩
  have hrec_tl : recAt (posCount yt yt) (prPairs yt yt) tl = 1 := by
    unfold recAt
    rw [if_neg hP_pos, hftl]
    exact div_self (by exact_mod_cast hP_pos)
  have hkne : keepUntilFull (posCount yt yt) (tpAt (prPairs yt yt))
      (prThresholds yt) ≠ [] := by
    intro h
    rw [h] at htl
    cases htl
  have hrevne : (keepUntilFull (posCount yt yt) (tpAt (prPairs yt yt))
      (prThresholds yt)).reverse ≠ [] := by
    simpa [List.reverse_eq_nil_iff] using hkne
  rcases List.exists_cons_of_ne_nil hrevne with ⟨h1, rest, hrev⟩
  have hhead : (keepUntilFull (posCount yt yt) (tpAt (prPairs yt yt))
      (prThresholds yt)).reverse.head? = some tl := by
    rw [List.head?_reverse]
    exact htl
  have h1tl : h1 = tl := by
    rw [hrev] at hhead
    simpa using hhead
  subst h1tl
  have htl_mem : h1 ∈ keepUntilFull (posCount yt yt) (tpAt (prPairs yt yt))
      (prThresholds yt) := by
    rw [← List.mem_reverse, hrev]
    exact List.mem_cons_self _ _
  have hpoints : prPoints yt yt =
      (recAt (posCount yt yt) (prPairs yt yt) h1, precAt (prPairs yt yt) h1) ::
        (rest.map (fun t => (recAt (posCount yt yt) (prPairs yt yt) t,
          precAt (prPairs yt yt) t)) ++ [(0, 1)]) := by
    unfold prPoints
    rw [hrev, List.map_cons, List.cons_append]
  have hones : ∀ q ∈ (recAt (posCount yt yt) (prPairs yt yt) h1,
      precAt (prPairs yt yt) h1) ::
        (rest.map (fun t => (recAt (posCount yt yt) (prPairs yt yt) t,
          precAt (prPairs yt yt) t)) ++ [((0 : ℚ), (1 : ℚ))]), q.2 = 1 := by
    intro q hq
    rcases List.mem_cons.mp hq with rfl | hq'
    · exact hprec h1 htl_mem
    · rcases List.mem_append.mp hq' with h | h
      · rcases List.mem_map.mp h with ⟨t, htr, rfl⟩
        have ht_mem : t ∈ keepUntilFull (posCount yt yt) (tpAt (prPairs yt yt))
            (prThresholds yt) := by
          rw [← List.mem_reverse, hrev]
          exact List.mem_cons_of_mem _ htr
        exact hprec t ht_mem
      · have : q = ((0 : ℚ), (1 : ℚ)) := by simpa using h
        rw [this]
  unfold auprOf
  rw [if_neg hytne, hpoints, trapezoid_of_ones _ _ hones]
  have hlast : ((((recAt (posCount yt yt) (prPairs yt yt) h1,
      precAt (prPairs yt yt) h1) ::
        (rest.map (fun t => (recAt (posCount yt yt) (prPairs yt yt) t,
          precAt (prPairs yt yt) t)) ++ [((0 : ℚ), (1 : ℚ))])).getLast?).getD
      ((0 : ℚ), (0 : ℚ))) = ((0 : ℚ), (1 : ℚ)) :=
    getLastD_cons_append_singleton _ _ _ _
  rw [hlast, hrec_tl]
  norm_num

/-- C5 (amended).  For every held-out set whose true affinities are not
all equal, if the predictions exactly equal the true affinities then the
evaluator returns MSE = 0, R² = 1, CI = 1 and Pearson = 1, and AUPR = 1
provided binarizing the truths at 12.1 leaves both classes non-empty.
(The original claim, stated for every non-empty held-out set, fails on
constant truths: see the counterexample, where the concordance-index
call raises instead of returning 1.) -/
theorem evaluator_perfect_predictions_spec (y_true : List ℚ)
    (hnc : ∃ a ∈ y_true, ∃ b ∈ y_true, a ≠ b) :
    (evaluate_model_with_metrics y_true y_true).1 = 0 ∧
    (evaluate_model_with_metrics y_true y_true).2.1 = some 1 ∧
    (evaluate_model_with_metrics y_true y_true).2.2.1 = some 1 ∧
    (evaluate_model_with_metrics y_true y_true).2.2.2.1 = some 1 ∧
    ((∃ a ∈ y_true, kibaThreshold < a) → (∃ b ∈ y_true, ¬kibaThreshold < b) →
      (evaluate_model_with_metrics y_true y_true).2.2.2.2 = some 1) := by
  refine ⟨mse_self y_true, ?_, ci_self hnc, pearson_self hnc,
    fun hp hn => aupr_self hp hn⟩
  rcases hnc with ⟨a, ha, b, hb, hne⟩
  exact r2_self (two_le_length_of_two_mem ha hb hne)

/-- C5 counterexample.  On the non-empty held-out set with constant
truths `[5, 5]` and predictions identical to the truths, the evaluator
does not return MSE = 0, R² = 1 and CI = 1: the concordance-index call
finds no admissible pair and raises `ZeroDivisionError` (modelled
`none`) instead of returning 1 (and `pearsonr` returns NaN). -/
theorem evaluator_perfect_predictions_cex :
    ¬ ((evaluate_model_with_metrics [5, 5] [5, 5]).1 = 0 ∧
      (evaluate_model_with_metrics [5, 5] [5, 5]).2.1 = some 1 ∧
      (evaluate_model_with_metrics [5, 5] [5, 5]).2.2.1 = some 1) := by
  intro h
  have hci : concordance_index [5, 5] [5, 5] = none := by
    unfold concordance_index
    rw [if_pos (by decide)]
  have hcontra : (none : Option ℚ) = some 1 := by
    rw [← hci]
    exact h.2.2
  cases hcontra

/-- Witness for C5 on the two-element held-out set `[13, 1]`, which is
non-constant and has both classes non-empty after binarization at
12.1. -/
theorem evaluator_perfect_predictions_spec_witness :
    (evaluate_model_with_metrics [13, 1] [13, 1]).1 = 0 ∧
    (evaluate_model_with_metrics [13, 1] [13, 1]).2.2.1 = some 1 ∧
    (evaluate_model_with_metrics [13, 1] [13, 1]).2.2.2.2 = some 1 :=
  ⟨(evaluator_perfect_predictions_spec [13, 1]
      ⟨13, by simp, 1, by simp, by norm_num⟩).1,
   (evaluator_perfect_predictions_spec [13, 1]
      ⟨13, by simp, 1, by simp, by norm_num⟩).2.2.1,
   (evaluator_perfect_predictions_spec [13, 1]
      ⟨13, by simp, 1, by simp, by norm_num⟩).2.2.2.2
     ⟨13, by simp, by norm_num [kibaThreshold]⟩
     ⟨1, by simp, by norm_num [kibaThreshold]⟩⟩

theorem sum_map_get {β : Type} : ∀ (l : List β) (g : β → ℚ),
    (l.map g).sum = ∑ i : Fin l.length, g (l.get i) := by
  intro l
  induction l with
  | nil => simp
  | cons x xs ih =>
    intro g
    rw [List.map_cons, List.sum_cons, ih g]
    simp only [List.length_cons]
    rw [Fin.sum_univ_succ]
    simp

theorem allPairs_sum {β : Type} (f : β → β → ℚ) :
    ∀ (l : List β), ((allPairs l).map (fun ab => f ab.1 ab.2)).sum =
      ∑ ij : Fin l.length × Fin l.length,
        if ij.1 < ij.2 then f (l.get ij.1) (l.get ij.2) else 0 := by
  intro l
  induction l with
  | nil => simp [allPairs]
  | cons x xs ih =>
    have hRHS : (∑ ij : Fin (x :: xs).length × Fin (x :: xs).length,
        if ij.1 < ij.2 then f ((x :: xs).get ij.1) ((x :: xs).get ij.2) else 0)
        = (∑ j : Fin xs.length, f x (xs.get j)) +
          ∑ ij : Fin xs.length × Fin xs.length,
            if ij.1 < ij.2 then f (xs.get ij.1) (xs.get ij.2) else 0 := by
      rw [Fintype.sum_prod_type]
      simp only [List.length_cons]
      rw [Fin.sum_univ_succ]
      congr 1
      · rw [Fin.sum_univ_succ]
        simp [Fin.succ_pos]
      · rw [Fintype.sum_prod_type]
        apply Finset.sum_congr rfl
        intro i _
        rw [Fin.sum_univ_succ]
        simp [Fin.succ_lt_succ_iff]
    rw [hRHS, allPairs, List.map_append, List.sum_append, List.map_map, ih]
    congr 1
    rw [sum_map_get]
    simp [Function.comp]

theorem allPairs_zip_sum (f : (ℚ × ℚ) → (ℚ × ℚ) → ℚ) (yt yp : List ℚ)
    (hlen : yt.length = yp.length) :
    ((allPairs (yt.zip yp)).map (fun ab => f ab.1 ab.2)).sum =
    ∑ ij : Fin yt.length × Fin yt.length,
      if ij.1 < ij.2 then
        f (yt.get ij.1, yp.get (Fin.cast hlen ij.1))
          (yt.get ij.2, yp.get (Fin.cast hlen ij.2)) else 0 := by
  have hzlen : (yt.zip yp).length = yt.length := by
    rw [List.length_zip, ← hlen, min_self]
  have hget : ∀ k : Fin (yt.zip yp).length, (yt.zip yp).get k =
      (yt.get (Fin.cast hzlen k), yp.get (Fin.cast hlen (Fin.cast hzlen k))) := by
    intro k
    simp [List.get_eq_getElem, List.getElem_zip]
  rw [allPairs_sum]
  apply Fintype.sum_equiv (Equiv.prodCongr (finCongr hzlen) (finCongr hzlen))
  rintro ⟨i, j⟩
  simp only [Equiv.prodCongr_apply, Prod.map, finCongr_apply]
  rw [hget i, hget j]
  exact if_congr Iff.rfl rfl rfl

/-- C6.  Whenever the evaluator returns a concordance index `c`, that
value equals, over all sample pairs (i, j) with differing true
affinities, the fraction of pairs whose prediction order agrees with the
truth order, counting prediction ties as 1/2; pairs with equal true
affinities enter neither the numerator nor the denominator. -/
theorem concordance_index_spec (y_true y_pred : List ℚ)
    (hlen : y_true.length = y_pred.length) (c : ℚ)
    (hc : (evaluate_model_with_metrics y_true y_pred).2.2.1 = some c) :
    c = (∑ ij : Fin y_true.length × Fin y_true.length,
          if ij.1 < ij.2 ∧ y_true.get ij.1 ≠ y_true.get ij.2 then
            (if y_pred.get (Fin.cast hlen ij.1) = y_pred.get (Fin.cast hlen ij.2)
              then 1 / 2
              else if (y_true.get ij.1 < y_true.get ij.2) ↔
                  (y_pred.get (Fin.cast hlen ij.1) < y_pred.get (Fin.cast hlen ij.2))
                then 1 else 0)
          else 0) /
        ((Finset.univ.filter (fun ij : Fin y_true.length × Fin y_true.length =>
            ij.1 < ij.2 ∧ y_true.get ij.1 ≠ y_true.get ij.2)).card : ℚ) := by
  replace hc : concordance_index y_true y_pred = some c := hc
  unfold concordance_index at hc
  by_cases hd : admissiblePairs y_true y_pred = 0
  · rw [if_pos hd] at hc
    cases hc
  rw [if_neg hd] at hc
  replace hc := Option.some.inj hc
  have hnum : ((allPairs (y_true.zip y_pred)).map (fun ab => pairScore ab.1 ab.2)).sum
      = ∑ ij : Fin y_true.length × Fin y_true.length,
          if ij.1 < ij.2 ∧ y_true.get ij.1 ≠ y_true.get ij.2 then
            (if y_pred.get (Fin.cast hlen ij.1) = y_pred.get (Fin.cast hlen ij.2)
              then 1 / 2
              else if (y_true.get ij.1 < y_true.get ij.2) ↔
                  (y_pred.get (Fin.cast hlen ij.1) < y_pred.get (Fin.cast hlen ij.2))
                then 1 else 0)
          else 0 := by
    rw [allPairs_zip_sum pairScore y_true y_pred hlen]
    apply Finset.sum_congr rfl
    rintro ⟨i, j⟩ -
    by_cases hij : i < j
    · by_cases ha : y_true.get i = y_true.get j
      · rw [if_pos hij, if_neg (fun h => h.2 ha), pairScore, if_pos ha]
      · rw [if_pos hij, if_pos ⟨hij, ha⟩, pairScore, if_neg ha]
    · rw [if_neg hij, if_neg (fun h => hij h.1)]
  have hdenQ : ((admissiblePairs y_true y_pred : ℕ) : ℚ)
      = (((Finset.univ.filter (fun ij : Fin y_true.length × Fin y_true.length =>
          ij.1 < ij.2 ∧ y_true.get ij.1 ≠ y_true.get ij.2)).card : ℕ) : ℚ) := by
    unfold admissiblePairs
    rw [countP_cast]
    have hshape : (allPairs (y_true.zip y_pred)).map
        (fun ab => if (fun ab : (ℚ × ℚ) × ℚ × ℚ => decide (ab.1.1 ≠ ab.2.1)) ab = true
          then (1 : ℚ) else 0)
        = (allPairs (y_true.zip y_pred)).map
          (fun ab => (fun u v : ℚ × ℚ => if u.1 ≠ v.1 then (1 : ℚ) else 0) ab.1 ab.2) := by
      apply List.map_congr_left
      intro ab _
      simp
    rw [hshape, allPairs_zip_sum (fun u v : ℚ × ℚ => if u.1 ≠ v.1 then (1 : ℚ) else 0)
      y_true y_pred hlen]
    rw [← Finset.sum_boole]
    apply Finset.sum_congr rfl
    rintro ⟨i, j⟩ -
    by_cases hij : i < j
    · by_cases ha : y_true.get i = y_true.get j
      · rw [if_pos hij, if_neg (by simpa using ha), if_neg (fun h => h.2 ha)]
      · rw [if_pos hij, if_pos (by simpa using ha), if_pos ⟨hij, ha⟩]
    · rw [if_neg hij, if_neg (fun h => hij h.1)]
  rw [← hc, hnum, hdenQ]

/-- Witness for C6: on truths `[1, 2]` with predictions `[1, 2]` the
evaluator returns CI = 1, which equals the pair fraction. -/
theorem concordance_index_spec_witness :
    (1 : ℚ) = (∑ ij : Fin ([(1 : ℚ), 2].length) × Fin ([(1 : ℚ), 2].length),
          if ij.1 < ij.2 ∧ [(1 : ℚ), 2].get ij.1 ≠ [(1 : ℚ), 2].get ij.2 then
            (if [(1 : ℚ), 2].get (Fin.cast rfl ij.1) = [(1 : ℚ), 2].get (Fin.cast rfl ij.2)
              then 1 / 2
              else if ([(1 : ℚ), 2].get ij.1 < [(1 : ℚ), 2].get ij.2) ↔
                  ([(1 : ℚ), 2].get (Fin.cast rfl ij.1) < [(1 : ℚ), 2].get (Fin.cast rfl ij.2))
                then 1 else 0)
          else 0) /
        ((Finset.univ.filter (fun ij : Fin ([(1 : ℚ), 2].length) × Fin ([(1 : ℚ), 2].length) =>
            ij.1 < ij.2 ∧ [(1 : ℚ), 2].get ij.1 ≠ [(1 : ℚ), 2].get ij.2)).card : ℚ) :=
  concordance_index_spec [1, 2] [1, 2] rfl 1 (by
    show concordance_index [1, 2] [1, 2] = some 1
    norm_num [concordance_index, admissiblePairs, allPairs, pairScore])

/-! ## Prediction model (`DrugProteinNN`) -/

/-- Dot product of two vectors. -/
def dotQ (u v : List ℚ) : ℚ := ((u.zip v).map (fun ab => ab.1 * ab.2)).sum

/-- A fully-connected layer `nn.Linear`: weight rows paired with biases,
applied to an input vector. -/
def linearLayer (W : List (List ℚ)) (b : List ℚ) (x : List ℚ) : List ℚ :=
  (W.zip b).map (fun rb => dotQ rb.1 x + rb.2)

/-- Inference-mode `nn.BatchNorm1d` is the per-feature affine map
`x ↦ γ·(x − μ)/√(σ² + ε) + β`; it is parametrized here by the effective
per-feature coefficients `scale = γ/√(σ² + ε)` and
`shift = β − γ·μ/√(σ² + ε)` (folding the square root into the parameters
keeps the model over ℚ). -/
def batchNorm1d (scale shift x : List ℚ) : List ℚ :=
  ((scale.zip shift).zip x).map (fun p => p.1.1 * p.2 + p.1.2)

/-- Componentwise rectified linear unit `nn.ReLU`. -/
def reluV (x : List ℚ) : List ℚ := x.map (fun v => max v 0)

/-- The parameters of `DrugProteinNN`: four linear layers and the three
batch-normalization coefficient vectors. -/
structure DrugProteinNN where
  fc1w : List (List ℚ)
  fc1b : List ℚ
  bn1s : List ℚ
  bn1t : List ℚ
  fc2w : List (List ℚ)
  fc2b : List ℚ
  bn2s : List ℚ
  bn2t : List ℚ
  fc3w : List (List ℚ)
  fc3b : List ℚ
  bn3s : List ℚ
  bn3t : List ℚ
  fc4w : List (List ℚ)
  fc4b : List ℚ

/-- Parameter shapes fixed by `DrugProteinNN.__init__(input_size)`:
`fc1 : input_size → 512`, `fc2 : 512 → 256`, `fc3 : 256 → 128`,
`fc4 : 128 → 1`, with a 512-, 256- and 128-feature `BatchNorm1d`. -/
def DrugProteinNN.wellFormed (input_size : Nat) (m : DrugProteinNN) : Prop :=
  m.fc1w.length = 512 ∧ (∀ r ∈ m.fc1w, r.length = input_size) ∧
  m.fc1b.length = 512 ∧ m.bn1s.length = 512 ∧ m.bn1t.length = 512 ∧
  m.fc2w.length = 256 ∧ (∀ r ∈ m.fc2w, r.length = 512) ∧
  m.fc2b.length = 256 ∧ m.bn2s.length = 256 ∧ m.bn2t.length = 256 ∧
  m.fc3w.length = 128 ∧ (∀ r ∈ m.fc3w, r.length = 256) ∧
  m.fc3b.length = 128 ∧ m.bn3s.length = 128 ∧ m.bn3t.length = 128 ∧
  m.fc4w.length = 1 ∧ (∀ r ∈ m.fc4w, r.length = 128) ∧ m.fc4b.length = 1

/-- First hidden activation `ReLU()(self.bn1(self.fc1(x)))`. -/
def DrugProteinNN.hidden1 (m : DrugProteinNN) (x : List ℚ) : List ℚ :=
  reluV (batchNorm1d m.bn1s m.bn1t (linearLayer m.fc1w m.fc1b x))

/-- Second hidden activation `ReLU()(self.bn2(self.fc2(x)))`. -/
def DrugProteinNN.hidden2 (m : DrugProteinNN) (x : List ℚ) : List ℚ :=
  reluV (batchNorm1d m.bn2s m.bn2t (linearLayer m.fc2w m.fc2b (m.hidden1 x)))

/-- Third hidden activation `ReLU()(self.bn3(self.fc3(x)))`. -/
def DrugProteinNN.hidden3 (m : DrugProteinNN) (x : List ℚ) : List ℚ :=
  reluV (batchNorm1d m.bn3s m.bn3t (linearLayer m.fc3w m.fc3b (m.hidden2 x)))

/-- Embedding of `DrugProteinNN.forward`: the returned value is the raw
output `self.fc4(x)` of the fourth linear layer, with no activation. -/
def DrugProteinNN.forward (m : DrugProteinNN) (x : List ℚ) : List ℚ :=
  linearLayer m.fc4w m.fc4b (m.hidden3 x)

/-- C9.  For well-formed parameters, the forward pass computes three
hidden activations of widths 512, 256 and 128 — each a linear transform
followed by batch normalization and a ReLU — and the output is the raw
scalar (length-1) result of the fourth linear transform applied to the
third hidden activation, with no activation on it. -/
theorem forward_architecture (m : DrugProteinNN) (input_size : Nat) (x : List ℚ)
    (hm : m.wellFormed input_size) :
    (m.hidden1 x).length = 512 ∧ (m.hidden2 x).length = 256 ∧
    (m.hidden3 x).length = 128 ∧ (m.forward x).length = 1 ∧
    m.forward x = linearLayer m.fc4w m.fc4b
      (reluV (batchNorm1d m.bn3s m.bn3t
        (linearLayer m.fc3w m.fc3b (m.hidden2 x)))) := by
  obtain ⟨h1w, -, h1b, h1s, h1t, h2w, -, h2b, h2s, h2t,
    h3w, -, h3b, h3s, h3t, h4w, -, h4b⟩ := hm
  refine ⟨?_, ?_, ?_, ?_, rfl⟩
  · simp [DrugProteinNN.hidden1, reluV, batchNorm1d, linearLayer,
      List.length_zip, h1w, h1b, h1s, h1t]
  · simp [DrugProteinNN.hidden2, reluV, batchNorm1d, linearLayer,
      List.length_zip, h2w, h2b, h2s, h2t]
  · simp [DrugProteinNN.hidden3, reluV, batchNorm1d, linearLayer,
      List.length_zip, h3w, h3b, h3s, h3t]
  · simp [DrugProteinNN.forward, linearLayer, List.length_zip, h4w, h4b]

set_option maxRecDepth 8000 in
/-- Witness for C9: the all-zero parameter set for a 4-feature input. -/
theorem forward_architecture_witness :
    ((⟨List.replicate 512 (List.replicate 4 0), List.replicate 512 0,
        List.replicate 512 0, List.replicate 512 0,
        List.replicate 256 (List.replicate 512 0), List.replicate 256 0,
        List.replicate 256 0, List.replicate 256 0,
        List.replicate 128 (List.replicate 256 0), List.replicate 128 0,
        List.replicate 128 0, List.replicate 128 0,
        List.replicate 1 (List.replicate 128 0), List.replicate 1 0⟩ :
      DrugProteinNN).forward (List.replicate 4 0)).length = 1 :=
  (forward_architecture _ 4 (List.replicate 4 0)
    (by
      refine ⟨by simp, ?_, by simp, by simp, by simp, by simp, ?_, by simp,
        by simp, by simp, by simp, ?_, by simp, by simp, by simp, by simp,
        ?_, by simp⟩ <;>
        · intro r hr
          rw [List.eq_of_mem_replicate hr]
          simp)).2.2.2.1

end DrugWeave
